import Mathlib

/-!
Verification development for the Battlesnake decision core in `main.py`.

The Python program is shallowly embedded below.  Python `int` is modelled as
`Int`; list slices `xs[:-1]` as `List.dropLast`; dictionaries used as maps from
coordinates are modelled as association lists (`lookupA` / `setA`, first entry
wins, replacement in place) which matches `dict` semantics since keys are kept
unique; `heapq` is modelled by popping the minimum entry under the Python tuple
order `(f, (x, y))` — the binary-heap layout is irrelevant because the popped
value of a heap is always a minimal element of the multiset of entries, entries
of the same key have strictly decreasing `f`, and identical values are
interchangeable.  `random.choice(seq)` is modelled by `random_choice seq r`
where `r` is an arbitrary seed: it returns `seq[r % len(seq)]`, an element of
any non-empty `seq`.  The non-terminating `while heap:` loop is modelled with
an explicit fuel argument `searchFuel`; theorem `find_path_fuel_stable` below
proves the fuel is never exhausted, so the model agrees with the unbounded
loop.  Python `game_state["you"]["body"][0]` and `[1]` (head and neck) are
modelled with `headI`/`getD`: they agree with Python whenever the relevant list
is long enough, which the theorems assume as hypotheses where it matters.
-/

abbrev Pos := Int × Int

structure Snake where
  id : String
  body : List Pos
  health : Int
deriving DecidableEq, Repr

structure Board where
  width : Int
  height : Int
  food : List Pos
  snakes : List Snake
deriving DecidableEq, Repr

structure GameState where
  board : Board
  you : Snake
deriving DecidableEq, Repr

/-- DIRECTIONS dict of `main.py`, in its (ordered-dict) insertion order. -/
def DIRECTIONS : List (String × Pos) :=
  [("up", (0, 1)), ("down", (0, -1)), ("left", (-1, 0)), ("right", (1, 0))]

/-- POSSIBLE_MOVES = list(DIRECTIONS.keys()). -/
def POSSIBLE_MOVES : List String := DIRECTIONS.map (fun md => md.1)

def LOW_HEALTH_THRESHOLD : Int := 30

def LENGTH_ADVANTAGE_THRESHOLD : Nat := 2

/-- Embedding of `is_safe(x, y, game_state)` from `main.py`. -/
def is_safe (x y : Int) (gs : GameState) : Bool :=
  let board_width := gs.board.width
  let board_height := gs.board.height
  let my_body := gs.you.body
  if x < 0 || y < 0 || x ≥ board_width || y ≥ board_height then false
  else if my_body.dropLast.any (fun part => part.1 == x && part.2 == y) then false
  else gs.board.snakes.all (fun snake =>
    if snake.id ≠ gs.you.id then
      if snake.body.dropLast.any (fun part => part.1 == x && part.2 == y) then false
      else if decide (snake.body.length ≥ my_body.length)
             && ((snake.body.headI.1 - x).natAbs + (snake.body.headI.2 - y).natAbs == 1)
        then false
      else true
    else true)

/-- Embedding of `get_safe_moves(game_state)`: the Python loop appends, in
DIRECTIONS order, every move that is not a reversal onto the neck and whose
target cell is safe. -/
def get_safe_moves (gs : GameState) : List String :=
  let my_head := gs.you.body.headI
  let my_neck := gs.you.body.getD 1 (0, 0)
  DIRECTIONS.filterMap (fun md =>
    if (md.1 == "up" && decide (my_neck.2 > my_head.2))
        || (md.1 == "down" && decide (my_neck.2 < my_head.2))
        || (md.1 == "left" && decide (my_neck.1 < my_head.1))
        || (md.1 == "right" && decide (my_neck.1 > my_head.1)) then none
    else
      let new_x := my_head.1 + md.2.1
      let new_y := my_head.2 + md.2.2
      if is_safe new_x new_y gs then some md.1 else none)

/-- Embedding of `manhattan_distance(a, b)`. -/
def manhattan_distance (a b : Pos) : Nat :=
  (a.1 - b.1).natAbs + (a.2 - b.2).natAbs

/-- Association-list lookup, modelling Python `dict` reads. -/
def lookupA {β : Type} : List (Pos × β) → Pos → Option β
  | [], _ => none
  | e :: rest, k => if e.1 = k then some e.2 else lookupA rest k

/-- Association-list update, modelling Python `dict` writes: replaces the
binding in place if the key is present, appends a fresh binding otherwise. -/
def setA {β : Type} : List (Pos × β) → Pos → β → List (Pos × β)
  | [], k, v => [(k, v)]
  | e :: rest, k, v => if e.1 = k then (k, v) :: rest else e :: setA rest k v

/-- Python tuple order on heap entries `(f, (x, y))`. -/
def entLe (a b : Nat × Pos) : Bool :=
  decide (a.1 < b.1)
    || (a.1 == b.1
        && (decide (a.2.1 < b.2.1) || (a.2.1 == b.2.1 && decide (a.2.2 ≤ b.2.2))))

/-- Minimum heap entry under `entLe`, starting from a candidate. -/
def heapMinFrom : Nat × Pos → List (Nat × Pos) → Nat × Pos
  | m, [] => m
  | m, e :: rest => heapMinFrom (if entLe m e then m else e) rest

/-- Removes the first occurrence of a value from the heap list. -/
def removeFirst : List (Nat × Pos) → Nat × Pos → List (Nat × Pos)
  | [], _ => []
  | e :: rest, v => if e = v then rest else e :: removeFirst rest v

/-- Embedding of `heapq.heappop`: returns a minimal entry under the Python
tuple order together with the remaining entries. -/
def heapPop (heap : List (Nat × Pos)) : Option ((Nat × Pos) × List (Nat × Pos)) :=
  match heap with
  | [] => none
  | e :: rest =>
    let m := heapMinFrom e rest
    some (m, removeFirst (e :: rest) m)

/-- Embedding of `get_neighbors(pos)` (the inner generator of `find_path`). -/
def neighbors (gs : GameState) (pos : Pos) : List Pos :=
  DIRECTIONS.filterMap (fun md =>
    let nx := pos.1 + md.2.1
    let ny := pos.2 + md.2.2
    if is_safe nx ny gs then some (nx, ny) else none)

/-- Mutable state of the `find_path` loop: the heap and the `came_from` and
`g_score` dictionaries.  The write-only `f_score` dictionary of the source is
not modelled: each `f_score[neighbor]` is pushed immediately after being
written and `f_score[start]` is never read, so the value is inlined at the
single push site. -/
structure SearchState where
  heap : List (Nat × Pos)
  came_from : List (Pos × Pos)
  g_score : List (Pos × Nat)
deriving Repr

/-- Embedding of the body of `for neighbor in get_neighbors(current):`. -/
def relax (gs : GameState) (goal current : Pos) (st : SearchState) (neighbor : Pos) :
    SearchState :=
  let tentative_g_score := (lookupA st.g_score current).getD 0 + 1
  let push : SearchState :=
    { heap := (tentative_g_score + manhattan_distance neighbor goal, neighbor) :: st.heap
      came_from := setA st.came_from neighbor current
      g_score := setA st.g_score neighbor tentative_g_score }
  match lookupA st.g_score neighbor with
  | some gn => if tentative_g_score < gn then push else st
  | none => push

/-- Embedding of the path-reconstruction `while current in came_from:` loop.
The accumulated list is exactly the reversed Python `path` before `start` is
prepended.  The fuel argument bounds the chain length; the caller passes
`came_from.length + 1`, which suffices because `g_score` strictly decreases
along `came_from` links (proved below), so the chain never revisits a key. -/
def reconstruct (came_from : List (Pos × Pos)) : Nat → Pos → List Pos → List Pos
  | 0, _, acc => acc
  | fuel + 1, current, acc =>
    match lookupA came_from current with
    | some prev => reconstruct came_from fuel prev (current :: acc)
    | none => acc

/-- Embedding of the `while heap:` loop of `find_path`, with explicit fuel. -/
def find_path_aux (gs : GameState) (start goal : Pos) :
    Nat → SearchState → Option (List Pos)
  | 0, _ => none
  | fuel + 1, st =>
    match heapPop st.heap with
    | none => none
    | some (e, rest) =>
      let current := e.2
      if current = goal then
        some (start :: reconstruct st.came_from (st.came_from.length + 1) current [])
      else
        find_path_aux gs start goal fuel
          (List.foldl (relax gs goal current)
            { heap := rest, came_from := st.came_from, g_score := st.g_score }
            (neighbors gs current))

/-- Fuel budget for the search loop; `find_path_fuel_stable` proves that the
loop always finishes strictly within this many iterations. -/
def searchFuel (gs : GameState) : Nat :=
  (gs.board.width.toNat * gs.board.height.toNat + 3) ^ 2

/-- Embedding of `find_path(start, goal, game_state)`.  The initial heap is
`[(0, start)]` exactly as in the source (not `manhattan_distance start goal`:
the initial f-score is written to the dict but the pushed entry carries 0). -/
def find_path (start goal : Pos) (gs : GameState) : Option (List Pos) :=
  find_path_aux gs start goal (searchFuel gs)
    { heap := [(0, start)], came_from := [], g_score := [(start, 0)] }

/-- Instrumented copy of the `find_path` loop that records, in order, every
position popped from the heap and then expanded (popping the goal returns
without expanding, so it is not recorded).  The control flow is identical to
`find_path_aux`. -/
def find_path_exp_aux (gs : GameState) (goal : Pos) :
    Nat → SearchState → List Pos → List Pos
  | 0, _, acc => acc.reverse
  | fuel + 1, st, acc =>
    match heapPop st.heap with
    | none => acc.reverse
    | some (e, rest) =>
      let current := e.2
      if current = goal then acc.reverse
      else
        find_path_exp_aux gs goal fuel
          (List.foldl (relax gs goal current)
            { heap := rest, came_from := st.came_from, g_score := st.g_score }
            (neighbors gs current))
          (current :: acc)

/-- Sequence of node expansions performed by `find_path start goal gs`. -/
def find_path_expansions (start goal : Pos) (gs : GameState) : List Pos :=
  find_path_exp_aux gs goal (searchFuel gs)
    { heap := [(0, start)], came_from := [], g_score := [(start, 0)] } []

/-- Priority order demanded by the spec for the heuristic-search variant:
frontier priority `f` first, then lowest cumulative distance-so-far `g`, then
the fixed direction order (index into up, down, left, right); a final
positional comparison keeps residual ties deterministic. -/
def specEntLe (a b : Nat × Nat × Nat × Pos) : Bool :=
  decide (a.1 < b.1)
    || (a.1 == b.1
      && (decide (a.2.1 < b.2.1)
        || (a.2.1 == b.2.1
          && (decide (a.2.2.1 < b.2.2.1)
            || (a.2.2.1 == b.2.2.1
              && (decide (a.2.2.2.1 < b.2.2.2.1)
                || (a.2.2.2.1 == b.2.2.2.1 && decide (a.2.2.2.2 ≤ b.2.2.2.2))))))))

def specHeapMinFrom : Nat × Nat × Nat × Pos → List (Nat × Nat × Nat × Pos) →
    Nat × Nat × Nat × Pos
  | m, [] => m
  | m, e :: rest => specHeapMinFrom (if specEntLe m e then m else e) rest

def specRemoveFirst : List (Nat × Nat × Nat × Pos) → Nat × Nat × Nat × Pos →
    List (Nat × Nat × Nat × Pos)
  | [], _ => []
  | e :: rest, v => if e = v then rest else e :: specRemoveFirst rest v

def specHeapPop (heap : List (Nat × Nat × Nat × Pos)) :
    Option ((Nat × Nat × Nat × Pos) × List (Nat × Nat × Nat × Pos)) :=
  match heap with
  | [] => none
  | e :: rest =>
    let m := specHeapMinFrom e rest
    some (m, specRemoveFirst (e :: rest) m)

/-- Neighbours together with the index of the direction that reaches them. -/
def neighborsIdx (gs : GameState) (pos : Pos) : List (Nat × Pos) :=
  DIRECTIONS.enum.filterMap (fun imd =>
    let nx := pos.1 + imd.2.2.1
    let ny := pos.2 + imd.2.2.2
    if is_safe nx ny gs then some (imd.1, (nx, ny)) else none)

structure SpecSearchState where
  heap : List (Nat × Nat × Nat × Pos)
  came_from : List (Pos × Pos)
  g_score : List (Pos × Nat)
deriving Repr

def spec_relax (gs : GameState) (goal current : Pos) (st : SpecSearchState)
    (dirNeighbor : Nat × Pos) : SpecSearchState :=
  let neighbor := dirNeighbor.2
  let tentative_g_score := (lookupA st.g_score current).getD 0 + 1
  let push : SpecSearchState :=
    { heap := (tentative_g_score + manhattan_distance neighbor goal,
               tentative_g_score, dirNeighbor.1, neighbor) :: st.heap
      came_from := setA st.came_from neighbor current
      g_score := setA st.g_score neighbor tentative_g_score }
  match lookupA st.g_score neighbor with
  | some gn => if tentative_g_score < gn then push else st
  | none => push

def find_path_spec_aux (gs : GameState) (start goal : Pos) :
    Nat → SpecSearchState → Option (List Pos)
  | 0, _ => none
  | fuel + 1, st =>
    match specHeapPop st.heap with
    | none => none
    | some (e, rest) =>
      let current := e.2.2.2
      if current = goal then
        some (start :: reconstruct st.came_from (st.came_from.length + 1) current [])
      else
        find_path_spec_aux gs start goal fuel
          (List.foldl (spec_relax gs goal current)
            { heap := rest, came_from := st.came_from, g_score := st.g_score }
            (neighborsIdx gs current))

/-- Modelled from the spec: the heuristic-search variant of `find_path` whose
tie-break on equal frontier priority is "lowest cumulative distance-so-far,
then fixed direction order" (spec section 4.3).  Only the heap entry order
differs from `find_path`. -/
def find_path_spec_tiebreak (start goal : Pos) (gs : GameState) : Option (List Pos) :=
  find_path_spec_aux gs start goal (searchFuel gs)
    { heap := [(0, 0, 0, start)], came_from := [], g_score := [(start, 0)] }

/-- Embedding of `get_move_from_path(path, my_head)`.  Python returns `None`
implicitly when every branch fails (next cell equal to the head). -/
def get_move_from_path (path : List Pos) (my_head : Pos) : Option String :=
  if path.length < 2 then none
  else
    let next_move := path.getD 1 (0, 0)
    if next_move.1 > my_head.1 then some "right"
    else if next_move.1 < my_head.1 then some "left"
    else if next_move.2 > my_head.2 then some "up"
    else if next_move.2 < my_head.2 then some "down"
    else none

/-- Embedding of Python `min(food, key=manhattan-to-head)`: keeps the first
element attaining the minimal key. -/
def closest_food_in (my_head : Pos) : List Pos → Pos
  | [] => (0, 0)
  | f :: rest =>
    rest.foldl
      (fun best g =>
        if manhattan_distance g my_head < manhattan_distance best my_head then g
        else best) f

/-- Embedding of `seek_food(game_state, safe_moves)`.  The Python truthiness
test `if path_to_food:` rejects both `None` and the empty list; `None in
safe_moves` is `False`, so a failed translation also falls through to
`return None`. -/
def seek_food (gs : GameState) (safe_moves : List String) : Option String :=
  let my_head := gs.you.body.headI
  let food := gs.board.food
  if food.isEmpty then none
  else
    let closest_food := closest_food_in my_head food
    match find_path (my_head.1, my_head.2) (closest_food.1, closest_food.2) gs with
    | none => none
    | some path_to_food =>
      if path_to_food.isEmpty then none
      else
        match get_move_from_path path_to_food my_head with
        | some mv => if safe_moves.contains mv then some mv else none
        | none => none

/-- Body of the `for snake in game_state["board"]["snakes"]:` loop of
`chase_smaller_snake`: the attempt made for one snake, `none` when the snake
is not strictly shorter or pathing/translation/safety fails. -/
def chase_try (gs : GameState) (safe_moves : List String) (my_head : Pos)
    (my_length : Nat) (snake : Snake) : Option String :=
  if snake.body.length < my_length then
    let tail := snake.body.getLastD (0, 0)
    match find_path (my_head.1, my_head.2) (tail.1, tail.2) gs with
    | none => none
    | some path_to_tail =>
      if path_to_tail.isEmpty then none
      else
        match get_move_from_path path_to_tail my_head with
        | some mv => if safe_moves.contains mv then some mv else none
        | none => none
  else none

/-- Embedding of `chase_smaller_snake(game_state, safe_moves)`: the loop with
early return is `List.findSome?` of the per-snake attempt. -/
def chase_smaller_snake (gs : GameState) (safe_moves : List String) : Option String :=
  let my_head := gs.you.body.headI
  let my_length := gs.you.body.length
  gs.board.snakes.findSome? (chase_try gs safe_moves my_head my_length)

/-- Embedding of `random.choice(seq)` under a seed `r`: some element of any
non-empty sequence.  Both call sites of the source pass non-empty lists, so
the default is never returned. -/
def random_choice (seq : List String) (r : Nat) : String :=
  seq.getD (r % seq.length) "up"

/-- Tier of the strategy selector that produced the decision. -/
inductive Tier where
  | randomAll
  | food
  | chase
  | randomSafe
deriving DecidableEq, Repr

/-- Embedding of `move(game_state)` returning the chosen tier together with
the move string (the source wraps the string as `{"move": ...}`).  The seeds
`r1`, `r2` model the two `random.choice` call sites. -/
def move_tier (gs : GameState) (r1 r2 : Nat) : Tier × String :=
  let safe_moves := get_safe_moves gs
  if safe_moves.isEmpty then (Tier.randomAll, random_choice POSSIBLE_MOVES r1)
  else
    let my_health := gs.you.health
    let my_length := gs.you.body.length
    let other_snakes_lengths :=
      (gs.board.snakes.filter (fun snake => snake.id ≠ gs.you.id)).map
        (fun snake => snake.body.length)
    let max_snake_length := other_snakes_lengths.foldl max 0
    let food_move :=
      if my_health < LOW_HEALTH_THRESHOLD
          || decide (my_length ≤ max_snake_length + LENGTH_ADVANTAGE_THRESHOLD) then
        seek_food gs safe_moves
      else none
    match food_move with
    | some mv => (Tier.food, mv)
    | none =>
      match chase_smaller_snake gs safe_moves with
      | some mv => (Tier.chase, mv)
      | none => (Tier.randomSafe, random_choice safe_moves r2)

/-- Embedding of `move(game_state)`: the move string alone. -/
def move (gs : GameState) (r1 r2 : Nat) : String :=
  (move_tier gs r1 r2).2

/-- One step of a grid path: `q` is reached from `p` by one of the four unit
direction offsets and `q` passes the safety oracle. -/
def validStepB (gs : GameState) (p q : Pos) : Bool :=
  DIRECTIONS.any (fun md => q.1 == p.1 + md.2.1 && q.2 == p.2 + md.2.2)
    && is_safe q.1 q.2 gs

/-- Chain of valid steps from `cur` through the cells of `t`, ending at
`fin`; every cell of `t` (that is, every cell after the start) must pass the
safety oracle. -/
def validChainB (gs : GameState) : Pos → List Pos → Pos → Bool
  | cur, [], fin => cur == fin
  | cur, q :: rest, fin => validStepB gs cur q && validChainB gs q rest fin

/-- Valid path in the sense of the spec of `find_path`: first element `start`,
last element `goal`, consecutive cells four-directionally adjacent, every cell
except `start` safe. -/
def IsValidPath (gs : GameState) (start goal : Pos) (l : List Pos) : Prop :=
  ∃ t, l = start :: t ∧ validChainB gs start t goal = true

/-- Example snapshot: a 3 by 3 board whose only blocked cell is (1, 1) (a
non-tail body segment of the agent).  Used to separate the tie-break orders of
`find_path` and `find_path_spec_tiebreak`. -/
def gsTie : GameState :=
  let me : Snake := { id := "me", body := [(1, 1), (99, 99)], health := 100 }
  { board := { width := 3, height := 3, food := [], snakes := [me] }, you := me }

/-- Example snapshot: an empty 4 by 3 board (the agent's one-segment body
blocks nothing).  With start (3, 0) and the unreachable goal (-5, 2) the
search drains the whole board and re-expands stale heap entries. -/
def gsDrain : GameState :=
  let me : Snake := { id := "me", body := [(99, 99)], health := 100 }
  { board := { width := 4, height := 3, food := [], snakes := [me] }, you := me }

/-- Example snapshot for the opponent-chasing tier: the first strictly shorter
snake `a` has its tail (0, 0) walled off by the agent's body, while the second
strictly shorter snake `b` has a reachable tail. -/
def gsChase : GameState :=
  let me : Snake :=
    { id := "me", body := [(2, 2), (2, 3), (1, 0), (0, 1), (2, 4)], health := 100 }
  let sa : Snake := { id := "a", body := [(0, 0)], health := 100 }
  let sb : Snake := { id := "b", body := [(4, 4), (4, 3)], health := 100 }
  { board := { width := 5, height := 5, food := [], snakes := [sa, sb, me] }, you := me }

/-- Example snapshot on which the food tier fires: health 20 is below the
threshold, food at (4, 4), clear 5 by 5 board. -/
def gsFood : GameState :=
  let me : Snake := { id := "me", body := [(2, 2), (2, 1), (2, 0)], health := 20 }
  { board := { width := 5, height := 5, food := [(4, 4)], snakes := [me] }, you := me }

/-- Opponent length maximum as computed by `move`: `max(lengths)` when other
snakes exist, 0 otherwise (Python `max(xs) if xs else 0` equals the fold with
base 0 for the natural-number lengths). -/
def max_snake_length (gs : GameState) : Nat :=
  ((gs.board.snakes.filter (fun snake => snake.id ≠ gs.you.id)).map
    (fun snake => snake.body.length)).foldl max 0

/-- On-board predicate matching the bounds test of `is_safe`. -/
def inBoardP (gs : GameState) (p : Pos) : Prop :=
  0 ≤ p.1 ∧ p.1 < gs.board.width ∧ 0 ≤ p.2 ∧ p.2 < gs.board.height

/-- Sum of the stored g-scores. -/
def sumG (g : List (Pos × Nat)) : Nat := (g.map (fun e => e.2)).sum

/-- Upper bound on the number of distinct keys the search can create: every
key is an on-board cell or the start. -/
def cellCount (gs : GameState) : Nat :=
  gs.board.width.toNat * gs.board.height.toNat + 1

/-- Termination measure of the search loop: every iteration strictly
decreases it (proved below). -/
def phi (gs : GameState) (st : SearchState) : Nat :=
  st.heap.length + sumG st.g_score +
    (cellCount gs + 2) * (cellCount gs - st.g_score.length)

/-- Loop invariant of `find_path_aux`, relating the heap and the two
dictionaries of the running search for a fixed snapshot, start and goal. -/
structure SInv (gs : GameState) (start goal : Pos) (st : SearchState) : Prop where
  nd : (st.g_score.map Prod.fst).Nodup
  kb : ∀ e ∈ st.g_score, inBoardP gs e.1 ∨ e.1 = start
  vb : ∀ e ∈ st.g_score, e.2 < st.g_score.length
  hk : ∀ e ∈ st.heap, e.2 ∈ st.g_score.map Prod.fst
  g0 : lookupA st.g_score start = some 0
  snd : ∀ e ∈ st.g_score, ∃ t, validChainB gs start t e.1 = true ∧ t.length = e.2
  cfk : ∀ p : Pos, lookupA st.came_from p ≠ none ↔
    (p ∈ st.g_score.map Prod.fst ∧ p ≠ start)
  cfs : ∀ p q : Pos, lookupA st.came_from p = some q →
    ∃ gp gq, lookupA st.g_score p = some gp ∧ lookupA st.g_score q = some gq ∧
      gq < gp ∧ validStepB gs q p = true
  cfl : st.g_score.length ≤ st.came_from.length + 1
  hs : ∀ e ∈ st.heap, (∃ gp, lookupA st.g_score e.2 = some gp ∧
        gp + manhattan_distance e.2 goal ≤ e.1) ∨ e = (0, start)
  fr : ∀ e ∈ st.g_score,
    (∃ f, (f, e.1) ∈ st.heap ∧ f ≤ e.2 + manhattan_distance e.1 goal) ∨
    ∀ r ∈ neighbors gs e.1, ∃ gr, lookupA st.g_score r = some gr ∧ gr ≤ e.2 + 1
  gl : ∀ gg, lookupA st.g_score goal = some gg → ∃ f, (f, goal) ∈ st.heap ∧ f ≤ gg

/-- Relax-local part of the search invariant: the fields preserved by each
single neighbour relaxation, independent of which heap entry was popped. -/
structure RInv (gs : GameState) (start : Pos) (st : SearchState) : Prop where
  nd : (st.g_score.map Prod.fst).Nodup
  kb : ∀ e ∈ st.g_score, inBoardP gs e.1 ∨ e.1 = start
  vb : ∀ e ∈ st.g_score, e.2 < st.g_score.length
  g0 : lookupA st.g_score start = some 0
  snd : ∀ e ∈ st.g_score, ∃ t, validChainB gs start t e.1 = true ∧ t.length = e.2
  cfk : ∀ p : Pos, lookupA st.came_from p ≠ none ↔
    (p ∈ st.g_score.map Prod.fst ∧ p ≠ start)
  cfs : ∀ p q : Pos, lookupA st.came_from p = some q →
    ∃ gp gq, lookupA st.g_score p = some gp ∧ lookupA st.g_score q = some gq ∧
      gq < gp ∧ validStepB gs q p = true
  cfl : st.g_score.length ≤ st.came_from.length + 1
  hk : ∀ e ∈ st.heap, e.2 ∈ st.g_score.map Prod.fst

/-! ## Small helper lemmas -/

theorem searchFuel_pos (gs : GameState) : 1 ≤ searchFuel gs := by
  unfold searchFuel
  have h : 1 ≤ gs.board.width.toNat * gs.board.height.toNat + 3 := by omega
  calc 1 = 1 ^ 2 := by norm_num
    _ ≤ (gs.board.width.toNat * gs.board.height.toNat + 3) ^ 2 :=
        Nat.pow_le_pow_left h 2

theorem filterMap_fst_sublist (l : List (String × Pos)) (f : String × Pos → Option String)
    (hf : ∀ md b, f md = some b → b = md.1) :
    List.Sublist (l.filterMap f) (l.map Prod.fst) := by
  induction l with
  | nil => simp
  | cons a t ih =>
    rw [List.filterMap_cons, List.map_cons]
    cases hfa : f a with
    | none => exact (ih).cons a.1
    | some b => rw [hf a b hfa]; exact (ih).cons₂ a.1

/-! ## C10: find_path on equal start and goal -/

/-- C10: for every coordinate `c` and snapshot, `find_path c c` returns the
single-cell path `[c]`, even when `c` itself fails the safety oracle: the
goal test fires on the popped start node before any safety check. -/
theorem C10_find_path_self (c : Pos) (gs : GameState) :
    find_path c c gs = some [c] := by
  have h1 : searchFuel gs = (searchFuel gs - 1) + 1 := by
    have := searchFuel_pos gs
    omega
  rw [find_path, h1]
  simp [find_path_aux, heapPop, heapMinFrom, removeFirst, reconstruct, lookupA]

/-! ## C2: characterization of the safety oracle -/

theorem any_coord_iff (x y : Int) (l : List Pos) :
    (l.any (fun part => part.1 == x && part.2 == y)) = true ↔ (x, y) ∈ l := by
  rw [List.any_eq_true]
  constructor
  · rintro ⟨part, hmem, hp⟩
    simp only [Bool.and_eq_true, beq_iff_eq] at hp
    obtain ⟨h1, h2⟩ := hp
    have : part = (x, y) := by
      cases part
      simp_all
    exact this ▸ hmem
  · intro hmem
    exact ⟨(x, y), hmem, by simp⟩

theorem is_safe_true_iff (x y : Int) (gs : GameState) :
    is_safe x y gs = true ↔
      (0 ≤ x ∧ 0 ≤ y ∧ x < gs.board.width ∧ y < gs.board.height)
      ∧ (x, y) ∉ gs.you.body.dropLast
      ∧ ∀ s ∈ gs.board.snakes, s.id ≠ gs.you.id →
          ((x, y) ∉ s.body.dropLast
           ∧ ¬(gs.you.body.length ≤ s.body.length ∧
               manhattan_distance s.body.headI (x, y) = 1)) := by
  unfold is_safe
  dsimp only
  split_ifs with h1 h2
  · simp only [Bool.or_eq_true, decide_eq_true_eq] at h1
    simp only [false_iff]
    rintro ⟨⟨hx0, hy0, hxw, hyh⟩, -, -⟩
    rcases h1 with ((h | h) | h) | h <;> omega
  · simp only [false_iff]
    rintro ⟨-, hself, -⟩
    exact hself ((any_coord_iff x y _).1 h2)
  · simp only [Bool.or_eq_true, decide_eq_true_eq, not_or, not_lt, not_le] at h1
    obtain ⟨⟨⟨hx0, hy0⟩, hxw⟩, hyh⟩ := h1
    rw [List.all_eq_true]
    constructor
    · intro hall
      refine ⟨⟨hx0, hy0, hxw, hyh⟩, fun hm => h2 ((any_coord_iff x y _).2 hm), ?_⟩
      intro s hs hid
      have hP := hall s hs
      simp only at hP
      rw [if_pos hid] at hP
      constructor
      · intro hm
        rw [if_pos ((any_coord_iff x y _).2 hm)] at hP
        exact absurd hP (by simp)
      · rintro ⟨hlen, hman⟩
        by_cases hb : (s.body.dropLast.any (fun part => part.1 == x && part.2 == y)) = true
        · rw [if_pos hb] at hP
          exact absurd hP (by simp)
        · rw [if_neg hb, if_pos] at hP
          · exact absurd hP (by simp)
          · simp only [Bool.and_eq_true, decide_eq_true_eq, beq_iff_eq, ge_iff_le]
            exact ⟨hlen, by simpa [manhattan_distance] using hman⟩
    · rintro ⟨-, -, hsn⟩ s hs
      by_cases hid : s.id ≠ gs.you.id
      · rw [if_pos hid]
        obtain ⟨hb, hh⟩ := hsn s hs hid
        rw [if_neg (fun hc => hb ((any_coord_iff x y _).1 hc)), if_neg]
        simp only [Bool.and_eq_true, decide_eq_true_eq, beq_iff_eq, ge_iff_le, not_and]
        intro hlen hman
        exact hh ⟨hlen, by simpa [manhattan_distance] using hman⟩
      · rw [if_neg hid]

/-- C2: `is_safe x y` is false exactly when (x, y) is out of bounds, hits a
non-tail segment of the agent, hits a non-tail segment of another snake, or is
one Manhattan step from another snake's head whose snake is at least as long
as the agent.  The hypothesis keeps the model inside the domain where the
Python source cannot raise. -/
theorem C2_is_safe_false_iff (x y : Int) (gs : GameState)
    (h : gs.you.body ≠ []) :
    is_safe x y gs = false ↔
      (x < 0 ∨ y < 0 ∨ gs.board.width ≤ x ∨ gs.board.height ≤ y)
      ∨ (x, y) ∈ gs.you.body.dropLast
      ∨ (∃ s ∈ gs.board.snakes, s.id ≠ gs.you.id ∧ (x, y) ∈ s.body.dropLast)
      ∨ (∃ s ∈ gs.board.snakes, s.id ≠ gs.you.id ∧
          manhattan_distance s.body.headI (x, y) = 1 ∧
          gs.you.body.length ≤ s.body.length) := by
  rw [Bool.eq_false_iff, Ne, is_safe_true_iff]
  constructor
  · intro hn
    by_contra hcon
    push_neg at hcon
    obtain ⟨hb, hself, hoth, hhead⟩ := hcon
    refine hn ⟨⟨by omega, by omega, by omega, by omega⟩, hself, ?_⟩
    intro s hs hid
    refine ⟨fun hm => hoth s hs hid hm, ?_⟩
    rintro ⟨hlen, hman⟩
    exact absurd hlen (Nat.not_le.mpr (hhead s hs hid hman))
  · rintro (hb | hself | ⟨s, hs, hid, hm⟩ | ⟨s, hs, hid, hman, hlen⟩) ⟨hbnds, hself2, hsn⟩
    · obtain ⟨hx0, hy0, hxw, hyh⟩ := hbnds
      rcases hb with h | h | h | h <;> omega
    · exact hself2 hself
    · exact (hsn s hs hid).1 hm
    · exact (hsn s hs hid).2 ⟨hlen, hman⟩

/-- Concrete instantiation of `C2_is_safe_false_iff`. -/
theorem C2_is_safe_false_iff_witness :
    gsTie.you.body ≠ [] ∧
      (is_safe 1 1 gsTie = false ↔
        ((1 : Int) < 0 ∨ (1 : Int) < 0 ∨ gsTie.board.width ≤ 1 ∨ gsTie.board.height ≤ 1)
        ∨ ((1 : Int), (1 : Int)) ∈ gsTie.you.body.dropLast
        ∨ (∃ s ∈ gsTie.board.snakes, s.id ≠ gsTie.you.id ∧
            ((1 : Int), (1 : Int)) ∈ s.body.dropLast)
        ∨ (∃ s ∈ gsTie.board.snakes, s.id ≠ gsTie.you.id ∧
            manhattan_distance s.body.headI (1, 1) = 1 ∧
            gsTie.you.body.length ≤ s.body.length)) :=
  ⟨by decide, C2_is_safe_false_iff 1 1 gsTie (by decide)⟩

/-- Every list produced by `get_safe_moves` is a subsequence of the four move
tokens in their fixed order. -/
theorem get_safe_moves_sublist (gs : GameState) :
    List.Sublist (get_safe_moves gs) POSSIBLE_MOVES := by
  rw [get_safe_moves, POSSIBLE_MOVES]
  apply filterMap_fst_sublist
  intro md b hb
  dsimp only at hb
  split at hb
  · exact absurd hb (by simp)
  · split at hb
    · simpa using hb.symm
    · exact absurd hb (by simp)

/-! ## C6: soundness of the legal-move enumerator -/

/-- C6: with at least two body segments, the legal-move enumerator never
includes the direction whose unit offset applied to the head yields the neck
cell, every included move leads to a cell passing the safety oracle, and the
result is a subsequence of the four tokens in the fixed order up, down, left,
right (so the empty result is a possible outcome). -/
theorem C6_get_safe_moves_sound (gs : GameState) (h : 2 ≤ gs.you.body.length) :
    (("up" ∈ get_safe_moves gs →
        (gs.you.body.headI.1, gs.you.body.headI.2 + 1) ≠ gs.you.body.getD 1 (0, 0) ∧
        is_safe gs.you.body.headI.1 (gs.you.body.headI.2 + 1) gs = true)
     ∧ ("down" ∈ get_safe_moves gs →
        (gs.you.body.headI.1, gs.you.body.headI.2 - 1) ≠ gs.you.body.getD 1 (0, 0) ∧
        is_safe gs.you.body.headI.1 (gs.you.body.headI.2 + (-1)) gs = true)
     ∧ ("left" ∈ get_safe_moves gs →
        (gs.you.body.headI.1 - 1, gs.you.body.headI.2) ≠ gs.you.body.getD 1 (0, 0) ∧
        is_safe (gs.you.body.headI.1 + (-1)) gs.you.body.headI.2 gs = true)
     ∧ ("right" ∈ get_safe_moves gs →
        (gs.you.body.headI.1 + 1, gs.you.body.headI.2) ≠ gs.you.body.getD 1 (0, 0) ∧
        is_safe (gs.you.body.headI.1 + 1) gs.you.body.headI.2 gs = true))
    ∧ List.Sublist (get_safe_moves gs) POSSIBLE_MOVES := by
  constructor
  · refine ⟨?_, ?_, ?_, ?_⟩ <;>
      · intro hmem
        rw [get_safe_moves, List.mem_filterMap] at hmem
        obtain ⟨a, ha, hfa⟩ := hmem
        simp only [DIRECTIONS, List.mem_cons, List.not_mem_nil, or_false] at ha
        rcases ha with rfl | rfl | rfl | rfl <;> dsimp only at hfa <;>
          · split at hfa
            next hc => simp at hfa
            next hc =>
              split at hfa
              next hsafe =>
                first
                | exact absurd hfa (by decide)
                | (refine ⟨?_, by simpa using hsafe⟩
                   simp only [Bool.or_eq_true, Bool.and_eq_true, beq_iff_eq,
                     beq_self_eq_true, decide_eq_true_eq, String.reduceEq, false_and,
                     or_false, false_or, and_true, true_and] at hc
                   intro heq
                   rw [Prod.ext_iff] at heq
                   obtain ⟨h1, h2⟩ := heq
                   simp only at h1 h2
                   omega)
              next hsafe => simp at hfa
  · exact get_safe_moves_sublist gs

/-- Concrete instantiation of `C6_get_safe_moves_sound` at `gsFood`. -/
theorem C6_get_safe_moves_sound_witness :
    2 ≤ gsFood.you.body.length ∧
      List.Sublist (get_safe_moves gsFood) POSSIBLE_MOVES :=
  ⟨by decide, (C6_get_safe_moves_sound gsFood (by decide)).2⟩

/-! ## C1 and C9: totality and determinism of the decision entry point -/

theorem random_choice_mem (seq : List String) (r : Nat) (h : seq ≠ []) :
    random_choice seq r ∈ seq := by
  unfold random_choice
  have hlen : 0 < seq.length := List.length_pos.mpr h
  have hlt : r % seq.length < seq.length := Nat.mod_lt r hlen
  rw [List.getD, List.get?_eq_getElem?, List.getElem?_eq_getElem hlt]
  exact List.getElem_mem hlt

theorem findSome?_eq_some_mem {α β : Type} {l : List α} {f : α → Option β} {b : β}
    (h : l.findSome? f = some b) : ∃ a ∈ l, f a = some b := by
  induction l with
  | nil => simp [List.findSome?] at h
  | cons x t ih =>
    rw [List.findSome?_cons] at h
    cases hf : f x with
    | some c =>
      rw [hf] at h
      exact ⟨x, List.mem_cons_self x t, hf.trans h⟩
    | none =>
      rw [hf] at h
      obtain ⟨a, ha, hfa⟩ := ih h
      exact ⟨a, List.mem_cons_of_mem x ha, hfa⟩

theorem ite_eq_some_elim {α : Type} {c : Prop} [Decidable c] {x : Option α} {b : α}
    (h : (if c then x else none) = some b) : c ∧ x = some b := by
  by_cases hc : c
  · rw [if_pos hc] at h
    exact ⟨hc, h⟩
  · rw [if_neg hc] at h
    exact absurd h (by simp)

theorem seek_food_mem (gs : GameState) (sm : List String) (m : String)
    (h : seek_food gs sm = some m) : m ∈ sm := by
  unfold seek_food at h
  dsimp only at h
  by_cases hfe : gs.board.food.isEmpty
  · rw [if_pos hfe] at h
    exact absurd h (by simp)
  · rw [if_neg hfe] at h
    cases hfp : find_path (gs.you.body.headI.1, gs.you.body.headI.2)
        ((closest_food_in gs.you.body.headI gs.board.food).1,
         (closest_food_in gs.you.body.headI gs.board.food).2) gs with
    | none =>
      rw [hfp] at h
      exact absurd h (by simp)
    | some path =>
      rw [hfp] at h
      dsimp only at h
      by_cases hpe : path.isEmpty
      · rw [if_pos hpe] at h
        exact absurd h (by simp)
      · rw [if_neg hpe] at h
        cases hgm : get_move_from_path path gs.you.body.headI with
        | none =>
          rw [hgm] at h
          exact absurd h (by simp)
        | some mv =>
          rw [hgm] at h
          dsimp only at h
          obtain ⟨hc, hx⟩ := ite_eq_some_elim h
          rw [Option.some.injEq] at hx
          exact hx ▸ List.mem_of_elem_eq_true hc

theorem chase_try_mem (gs : GameState) (sm : List String) (hd : Pos) (n : Nat)
    (s : Snake) (m : String) (h : chase_try gs sm hd n s = some m) : m ∈ sm := by
  unfold chase_try at h
  dsimp only at h
  by_cases hlt : s.body.length < n
  · rw [if_pos hlt] at h
    cases hfp : find_path (hd.1, hd.2) ((s.body.getLastD (0, 0)).1, (s.body.getLastD (0, 0)).2) gs with
    | none =>
      rw [hfp] at h
      exact absurd h (by simp)
    | some path =>
      rw [hfp] at h
      dsimp only at h
      by_cases hpe : path.isEmpty
      · rw [if_pos hpe] at h
        exact absurd h (by simp)
      · rw [if_neg hpe] at h
        cases hgm : get_move_from_path path hd with
        | none =>
          rw [hgm] at h
          exact absurd h (by simp)
        | some mv =>
          rw [hgm] at h
          dsimp only at h
          obtain ⟨hc, hx⟩ := ite_eq_some_elim h
          rw [Option.some.injEq] at hx
          exact hx ▸ List.mem_of_elem_eq_true hc
  · rw [if_neg hlt] at h
    exact absurd h (by simp)

theorem chase_smaller_snake_mem (gs : GameState) (sm : List String) (m : String)
    (h : chase_smaller_snake gs sm = some m) : m ∈ sm := by
  unfold chase_smaller_snake at h
  obtain ⟨s, _, hfs⟩ := findSome?_eq_some_mem h
  exact chase_try_mem gs sm _ _ s m hfs

/-- C1: whenever the agent has at least two body segments, `move` returns one
of the four move tokens, for every snapshot and every outcome of the two
random choices; in particular it never fails, even with no safe moves, no
food, and no reachable goal. -/
theorem C1_move_total (gs : GameState) (r1 r2 : Nat) (h : 2 ≤ gs.you.body.length) :
    move gs r1 r2 ∈ POSSIBLE_MOVES := by
  unfold move move_tier
  by_cases hsm : (get_safe_moves gs).isEmpty
  · rw [if_pos hsm]
    exact random_choice_mem POSSIBLE_MOVES r1 (by decide)
  · rw [if_neg hsm]
    dsimp only
    have hne : get_safe_moves gs ≠ [] := by
      intro hc
      rw [hc] at hsm
      exact hsm rfl
    have hsub := (get_safe_moves_sublist gs).subset
    split
    next mv heq =>
      exact hsub (seek_food_mem gs _ mv (ite_eq_some_elim heq).2)
    next heq =>
      split
      next mv heq2 => exact hsub (chase_smaller_snake_mem gs _ mv heq2)
      next heq2 => exact hsub (random_choice_mem _ r2 hne)

/-- Concrete instantiation of `C1_move_total`. -/
theorem C1_move_total_witness :
    2 ≤ gsFood.you.body.length ∧ move gsFood 0 0 ∈ POSSIBLE_MOVES :=
  ⟨by decide, C1_move_total gsFood 0 0 (by decide)⟩

theorem move_tier_seed_independent (gs : GameState) (r1 r2 r1' r2' : Nat)
    (h : (move_tier gs r1 r2).1 = Tier.food ∨ (move_tier gs r1 r2).1 = Tier.chase) :
    move_tier gs r1 r2 = move_tier gs r1' r2' := by
  unfold move_tier at h ⊢
  by_cases hsm : (get_safe_moves gs).isEmpty
  · rw [if_pos hsm] at h
    simp at h
  · rw [if_neg hsm] at h ⊢
    dsimp only at h ⊢
    split
    next mv heq => rw [if_neg hsm]
    next heq =>
      rw [heq] at h
      dsimp only at h
      split
      next mv heq2 => rw [if_neg hsm]
      next heq2 =>
        rw [heq2] at h
        simp at h

/-- C9: on identical snapshots, whenever the decision comes from the
deterministic food-seeking or opponent-chasing tier, `move` returns the same
token independently of the random seeds. -/
theorem C9_move_deterministic_tiers (gs : GameState) (r1 r2 r1' r2' : Nat)
    (h : (move_tier gs r1 r2).1 = Tier.food ∨ (move_tier gs r1 r2).1 = Tier.chase) :
    move gs r1 r2 = move gs r1' r2' :=
  congrArg Prod.snd (move_tier_seed_independent gs r1 r2 r1' r2' h)

/-- Concrete instantiation of `C9_move_deterministic_tiers`: on `gsFood` the
food tier fires, and the decision is the same under different seeds. -/
theorem C9_move_deterministic_tiers_witness :
    ((move_tier gsFood 0 0).1 = Tier.food ∨ (move_tier gsFood 0 0).1 = Tier.chase)
      ∧ move gsFood 0 0 = move gsFood 7 13 :=
  ⟨Or.inl (by decide), C9_move_deterministic_tiers gsFood 0 0 7 13 (Or.inl (by decide))⟩

/-! ## C4: the opponent-chasing tier tries every shorter snake in order -/

theorem findSome?_eq_some_iff_split {α β : Type} {l : List α} {f : α → Option β} {b : β} :
    l.findSome? f = some b ↔
      ∃ pre a post, l = pre ++ a :: post ∧ f a = some b ∧ ∀ x ∈ pre, f x = none := by
  induction l with
  | nil =>
    simp only [List.findSome?_nil, false_iff, reduceCtorEq, not_exists]
    rintro pre a post ⟨heq, -, -⟩
    exact absurd heq (by simp)
  | cons x t ih =>
    rw [List.findSome?_cons]
    cases hf : f x with
    | some c =>
      simp only [Option.some.injEq]
      constructor
      · rintro rfl
        exact ⟨[], x, t, rfl, hf, by simp⟩
      · rintro ⟨pre, a, post, heq, hfa, hpre⟩
        cases pre with
        | nil =>
          rw [List.nil_append, List.cons.injEq] at heq
          rw [heq.1] at hf
          rw [hf] at hfa
          exact (Option.some.injEq _ _).mp hfa
        | cons y pre2 =>
          rw [List.cons_append, List.cons.injEq] at heq
          have := hpre y (List.mem_cons_self y pre2)
          rw [← heq.1] at this
          rw [this] at hf
          exact absurd hf (by simp)
    | none =>
      rw [ih]
      constructor
      · rintro ⟨pre, a, post, heq, hfa, hpre⟩
        refine ⟨x :: pre, a, post, by rw [heq, List.cons_append], hfa, ?_⟩
        intro z hz
        rcases List.mem_cons.mp hz with rfl | hz2
        · exact hf
        · exact hpre z hz2
      · rintro ⟨pre, a, post, heq, hfa, hpre⟩
        cases pre with
        | nil =>
          rw [List.nil_append, List.cons.injEq] at heq
          rw [heq.1] at hf
          rw [hf] at hfa
          exact absurd hfa (by simp)
        | cons y pre2 =>
          rw [List.cons_append, List.cons.injEq] at heq
          exact ⟨pre2, a, post, heq.2, hfa, fun z hz =>
            hpre z (List.mem_cons_of_mem y hz)⟩

/-- C4 fails on the code at this input: in `gsChase` the first snake in order
with strictly smaller body length is snake "a", pathing to its tail (0, 0)
fails, and yet the chasing tier returns a move (obtained from the later
shorter snake "b") instead of yielding no move. -/
theorem C4_counterexample :
    (gsChase.board.snakes.find?
        (fun s => decide (s.body.length < gsChase.you.body.length))) =
      some { id := "a", body := [(0, 0)], health := 100 } ∧
    find_path (gsChase.you.body.headI.1, gsChase.you.body.headI.2) (0, 0) gsChase = none ∧
    chase_smaller_snake gsChase (get_safe_moves gsChase) = some "right" := by
  decide

/-- C4 amended: the chasing tier iterates the snapshot's snakes in order and
returns the move of the FIRST snake whose whole attempt (strictly shorter,
path found, translated move in the safe-moves set) succeeds; a failed attempt
does not end the tier, it moves on to later snakes. -/
theorem C4_amended_chase_first_success (gs : GameState) (sm : List String) (m : String) :
    chase_smaller_snake gs sm = some m ↔
      ∃ pre s post, gs.board.snakes = pre ++ s :: post ∧
        chase_try gs sm gs.you.body.headI gs.you.body.length s = some m ∧
        ∀ s2 ∈ pre, chase_try gs sm gs.you.body.headI gs.you.body.length s2 = none := by
  unfold chase_smaller_snake
  exact findSome?_eq_some_iff_split

/-! ## C5: the food-seeking tier -/

theorem foldl_min_split (head : Pos) (rest : List Pos) : ∀ f : Pos,
    ∃ pre post,
      f :: rest = pre ++
          (rest.foldl (fun best g =>
            if manhattan_distance g head < manhattan_distance best head then g
            else best) f) :: post ∧
      (∀ g ∈ pre,
        manhattan_distance
            (rest.foldl (fun best g =>
              if manhattan_distance g head < manhattan_distance best head then g
              else best) f) head < manhattan_distance g head) ∧
      ∀ g ∈ f :: rest,
        manhattan_distance
            (rest.foldl (fun best g =>
              if manhattan_distance g head < manhattan_distance best head then g
              else best) f) head ≤ manhattan_distance g head := by
  induction rest with
  | nil =>
    intro f
    exact ⟨[], [], by simp, by simp, by simp⟩
  | cons g t ih =>
    intro f
    rw [List.foldl_cons]
    by_cases hlt : manhattan_distance g head < manhattan_distance f head
    · rw [if_pos hlt]
      obtain ⟨pre, post, hsplit, hpre, hmin⟩ := ih g
      refine ⟨f :: pre, post, by rw [List.cons_append, ← hsplit], ?_, ?_⟩
      · intro z hz
        rcases List.mem_cons.mp hz with rfl | hz2
        · exact lt_of_le_of_lt (hmin g (List.mem_cons_self g t)) hlt
        · exact hpre z hz2
      · intro z hz
        rcases List.mem_cons.mp hz with rfl | hz2
        · exact le_of_lt (lt_of_le_of_lt (hmin g (List.mem_cons_self g t)) hlt)
        · exact hmin z hz2
    · rw [if_neg hlt]
      obtain ⟨pre, post, hsplit, hpre, hmin⟩ := ih f
      set r := t.foldl (fun best g =>
        if manhattan_distance g head < manhattan_distance best head then g
        else best) f with hr
      cases pre with
      | nil =>
        rw [List.nil_append, List.cons.injEq] at hsplit
        refine ⟨[], g :: t, ?_, by simp, ?_⟩
        · rw [List.nil_append, ← hsplit.1]
        · intro z hz
          rcases List.mem_cons.mp hz with rfl | hz2
          · rw [← hsplit.1]
          · rcases List.mem_cons.mp hz2 with rfl | hz3
            · rw [← hsplit.1]
              omega
            · exact hmin z (List.mem_cons_of_mem f hz3)
      | cons y pre2 =>
        rw [List.cons_append, List.cons.injEq] at hsplit
        obtain ⟨rfl, hteq⟩ := hsplit
        have hfs : manhattan_distance r head < manhattan_distance f head :=
          hpre f (List.mem_cons_self f pre2)
        refine ⟨f :: g :: pre2, post, by simp [hteq], ?_, ?_⟩
        · intro z hz
          rcases List.mem_cons.mp hz with rfl | hz2
          · exact hfs
          · rcases List.mem_cons.mp hz2 with rfl | hz3
            · omega
            · exact hpre z (List.mem_cons_of_mem f hz3)
        · intro z hz
          rcases List.mem_cons.mp hz with rfl | hz2
          · exact le_of_lt hfs
          · rcases List.mem_cons.mp hz2 with rfl | hz3
            · omega
            · exact hmin z (List.mem_cons_of_mem f hz3)

theorem closest_food_in_spec (head : Pos) (food : List Pos) (h : food ≠ []) :
    ∃ pre post, food = pre ++ closest_food_in head food :: post ∧
      (∀ g ∈ pre,
        manhattan_distance (closest_food_in head food) head <
          manhattan_distance g head) ∧
      ∀ g ∈ food,
        manhattan_distance (closest_food_in head food) head ≤
          manhattan_distance g head := by
  cases food with
  | nil => exact absurd rfl h
  | cons f rest =>
    rw [closest_food_in]
    exact foldl_min_split head rest f

theorem seek_food_spec (gs : GameState) (sm : List String) (m : String)
    (h : seek_food gs sm = some m) :
    m ∈ sm ∧ gs.board.food ≠ [] ∧
      ∃ p, find_path (gs.you.body.headI.1, gs.you.body.headI.2)
          ((closest_food_in gs.you.body.headI gs.board.food).1,
           (closest_food_in gs.you.body.headI gs.board.food).2) gs = some p ∧
        get_move_from_path p gs.you.body.headI = some m := by
  refine ⟨seek_food_mem gs sm m h, ?_⟩
  unfold seek_food at h
  dsimp only at h
  by_cases hfe : gs.board.food.isEmpty
  · rw [if_pos hfe] at h
    exact absurd h (by simp)
  · rw [if_neg hfe] at h
    refine ⟨by simpa using hfe, ?_⟩
    cases hfp : find_path (gs.you.body.headI.1, gs.you.body.headI.2)
        ((closest_food_in gs.you.body.headI gs.board.food).1,
         (closest_food_in gs.you.body.headI gs.board.food).2) gs with
    | none =>
      rw [hfp] at h
      exact absurd h (by simp)
    | some path =>
      rw [hfp] at h
      dsimp only at h
      by_cases hpe : path.isEmpty
      · rw [if_pos hpe] at h
        exact absurd h (by simp)
      · rw [if_neg hpe] at h
        cases hgm : get_move_from_path path gs.you.body.headI with
        | none =>
          rw [hgm] at h
          exact absurd h (by simp)
        | some mv =>
          rw [hgm] at h
          dsimp only at h
          obtain ⟨-, hx⟩ := ite_eq_some_elim h
          rw [Option.some.injEq] at hx
          exact ⟨path, rfl, by rw [hgm, hx]⟩

/-- C5: with a non-empty safe-move set, (a) if health is below 30 or the
agent is not longer than every opponent by more than 2, a successful
food-seeking attempt決 is returned as the decision of the food tier; (b) if the
condition fails the decision never comes from the food tier; (c) the chosen
food is the first item of the food list attaining the minimal Manhattan
distance from the head; (d) a successful attempt returns a member of the
safe-moves set that is the translated first step of a path found to that
food item. -/
theorem C5_food_tier (gs : GameState) (r1 r2 : Nat)
    (hsm : (get_safe_moves gs).isEmpty = false) :
    ((gs.you.health < LOW_HEALTH_THRESHOLD ∨
        gs.you.body.length ≤ max_snake_length gs + LENGTH_ADVANTAGE_THRESHOLD) →
      ∀ m, seek_food gs (get_safe_moves gs) = some m →
        move_tier gs r1 r2 = (Tier.food, m))
    ∧ (¬(gs.you.health < LOW_HEALTH_THRESHOLD ∨
          gs.you.body.length ≤ max_snake_length gs + LENGTH_ADVANTAGE_THRESHOLD) →
        (move_tier gs r1 r2).1 ≠ Tier.food)
    ∧ (gs.board.food ≠ [] →
        ∃ pre post,
          gs.board.food =
            pre ++ closest_food_in gs.you.body.headI gs.board.food :: post ∧
          (∀ g ∈ pre,
            manhattan_distance (closest_food_in gs.you.body.headI gs.board.food)
                gs.you.body.headI < manhattan_distance g gs.you.body.headI) ∧
          ∀ g ∈ gs.board.food,
            manhattan_distance (closest_food_in gs.you.body.headI gs.board.food)
                gs.you.body.headI ≤ manhattan_distance g gs.you.body.headI)
    ∧ (∀ m, seek_food gs (get_safe_moves gs) = some m →
        m ∈ get_safe_moves gs ∧
        ∃ p, find_path (gs.you.body.headI.1, gs.you.body.headI.2)
            ((closest_food_in gs.you.body.headI gs.board.food).1,
             (closest_food_in gs.you.body.headI gs.board.food).2) gs = some p ∧
          get_move_from_path p gs.you.body.headI = some m) := by
  have hnsm : ¬((get_safe_moves gs).isEmpty = true) := by
    rw [hsm]
    simp
  refine ⟨?_, ?_, fun hf => closest_food_in_spec gs.you.body.headI gs.board.food hf,
    fun m hm => ⟨(seek_food_spec gs _ m hm).1, (seek_food_spec gs _ m hm).2.2⟩⟩
  · intro hcond m hm
    unfold move_tier
    rw [if_neg hnsm]
    dsimp only
    have hcb : (decide (gs.you.health < LOW_HEALTH_THRESHOLD) ||
        decide (gs.you.body.length ≤
          ((gs.board.snakes.filter (fun snake => snake.id ≠ gs.you.id)).map
              (fun snake => snake.body.length)).foldl max 0 +
            LENGTH_ADVANTAGE_THRESHOLD)) = true := by
      simp only [Bool.or_eq_true, decide_eq_true_eq]
      exact hcond
    rw [if_pos hcb, hm]
  · intro hncond
    unfold move_tier
    rw [if_neg hnsm]
    dsimp only
    have hcb : ¬((decide (gs.you.health < LOW_HEALTH_THRESHOLD) ||
        decide (gs.you.body.length ≤
          ((gs.board.snakes.filter (fun snake => snake.id ≠ gs.you.id)).map
              (fun snake => snake.body.length)).foldl max 0 +
            LENGTH_ADVANTAGE_THRESHOLD)) = true) := by
      simp only [Bool.or_eq_true, decide_eq_true_eq]
      exact hncond
    rw [if_neg hcb]
    split
    next mv heq => exact absurd heq (by simp)
    next heq => split <;> simp

/-- Concrete instantiation of `C5_food_tier` at `gsFood` (health 20 < 30). -/
theorem C5_food_tier_witness :
    (get_safe_moves gsFood).isEmpty = false ∧ move_tier gsFood 0 0 = (Tier.food, "up") :=
  ⟨by decide,
    (C5_food_tier gsFood 0 0 (by decide)).1 (Or.inl (by decide)) "up" (by decide)⟩

/-! ## C8: the tie-break order of the heap -/

theorem entLe_refl (a : Nat × Pos) : entLe a a = true := by
  simp [entLe]

theorem entLe_total (a b : Nat × Pos) : entLe a b = true ∨ entLe b a = true := by
  simp only [entLe, Bool.or_eq_true, Bool.and_eq_true, decide_eq_true_eq, beq_iff_eq]
  omega

theorem entLe_trans (a b c : Nat × Pos) (h1 : entLe a b = true) (h2 : entLe b c = true) :
    entLe a c = true := by
  simp only [entLe, Bool.or_eq_true, Bool.and_eq_true, decide_eq_true_eq, beq_iff_eq]
      at h1 h2 ⊢
  omega

theorem heapMinFrom_min (l : List (Nat × Pos)) : ∀ m : Nat × Pos,
    (heapMinFrom m l = m ∨ heapMinFrom m l ∈ l) ∧
    entLe (heapMinFrom m l) m = true ∧
    ∀ x ∈ l, entLe (heapMinFrom m l) x = true := by
  induction l with
  | nil =>
    intro m
    exact ⟨Or.inl rfl, entLe_refl m, by simp⟩
  | cons e rest ih =>
    intro m
    rw [heapMinFrom]
    obtain ⟨ihmem, ihself, ihall⟩ := ih (if entLe m e then m else e)
    by_cases hme : entLe m e = true
    · rw [if_pos hme] at ihmem ihself ihall ⊢
      refine ⟨?_, ihself, ?_⟩
      · rcases ihmem with h | h
        · exact Or.inl h
        · exact Or.inr (List.mem_cons_of_mem e h)
      · intro x hx
        rcases List.mem_cons.mp hx with rfl | hx2
        · exact entLe_trans _ m x ihself hme
        · exact ihall x hx2
    · rw [if_neg hme] at ihmem ihself ihall ⊢
      have hem : entLe e m = true := by
        rcases entLe_total m e with h | h
        · exact absurd h hme
        · exact h
      refine ⟨?_, entLe_trans _ e m ihself hem, ?_⟩
      · rcases ihmem with h | h
        · exact Or.inr (by rw [h]; exact List.mem_cons_self e rest)
        · exact Or.inr (List.mem_cons_of_mem e h)
      · intro x hx
        rcases List.mem_cons.mp hx with rfl | hx2
        · exact ihself
        · exact ihall x hx2

/-- C8 fails on the code at this input: the implemented heap order breaks
f-ties by the position tuple, so on `gsTie` (start (0, 0), goal (2, 2)) the
code returns a different shortest path than the variant that follows the
spec's tie-break (lowest cumulative distance-so-far, then fixed direction
order). -/
theorem C8_counterexample :
    find_path (0, 0) (2, 2) gsTie = some [(0, 0), (0, 1), (0, 2), (1, 2), (2, 2)] ∧
    find_path_spec_tiebreak (0, 0) (2, 2) gsTie =
      some [(0, 0), (1, 0), (2, 0), (2, 1), (2, 2)] ∧
    find_path (0, 0) (2, 2) gsTie ≠ find_path_spec_tiebreak (0, 0) (2, 2) gsTie := by
  decide

/-- C8 amended: the heap pop that drives `find_path` returns an entry that is
minimal under the lexicographic order on (f, x, y): ties on equal frontier
priority f are broken by the position tuple — smaller x first, then smaller y
— with cumulative distance-so-far and direction order playing no role. -/
theorem C8_amended_heapPop_lex_min (l : List (Nat × Pos)) (e : Nat × Pos)
    (rest : List (Nat × Pos)) (h : heapPop l = some (e, rest)) :
    e ∈ l ∧ ∀ e2 ∈ l, entLe e e2 = true := by
  cases l with
  | nil => exact absurd h (by simp [heapPop])
  | cons e0 rest0 =>
    rw [heapPop] at h
    simp only [Option.some.injEq, Prod.mk.injEq] at h
    obtain ⟨he, -⟩ := h
    obtain ⟨hmem, hself, hall⟩ := heapMinFrom_min rest0 e0
    subst he
    refine ⟨?_, ?_⟩
    · rcases hmem with h2 | h2
      · rw [h2]
        exact List.mem_cons_self e0 rest0
      · exact List.mem_cons_of_mem e0 h2
    · intro e2 he2
      rcases List.mem_cons.mp he2 with rfl | he22
      · exact hself
      · exact hall e2 he22

/-- Concrete instantiation of `C8_amended_heapPop_lex_min`: with equal f the
entry with the smaller x is popped even though its y and its implied g are
larger. -/
theorem C8_amended_heapPop_lex_min_witness :
    heapPop ([(1, (1, 0)), (1, (0, 5))] : List (Nat × Pos)) =
      some (((1, (0, 5)), [(1, (1, 0))]) : (Nat × Pos) × List (Nat × Pos)) ∧
    (((1, (0, 5)) : Nat × Pos) ∈ ([(1, (1, 0)), (1, (0, 5))] : List (Nat × Pos)) ∧
      ∀ e2 ∈ ([(1, (1, 0)), (1, (0, 5))] : List (Nat × Pos)),
        entLe (1, (0, 5)) e2 = true) := by
  have h : heapPop ([(1, (1, 0)), (1, (0, 5))] : List (Nat × Pos)) =
      some (((1, (0, 5)), [(1, (1, 0))]) : (Nat × Pos) × List (Nat × Pos)) := by
    decide
  exact ⟨h, C8_amended_heapPop_lex_min _ _ _ h⟩

/-! ## Association-list lemmas -/

theorem lookupA_mem {β : Type} (m : List (Pos × β)) (k : Pos) (v : β)
    (h : lookupA m k = some v) : (k, v) ∈ m := by
  induction m with
  | nil => exact absurd h (by simp [lookupA])
  | cons e rest ih =>
    rw [lookupA] at h
    by_cases hk : e.1 = k
    · rw [if_pos hk] at h
      rw [Option.some.injEq] at h
      have he : e = (k, v) := by
        cases e
        simp_all
      rw [← he]
      exact List.mem_cons_self e rest
    · rw [if_neg hk] at h
      exact List.mem_cons_of_mem e (ih h)

theorem lookupA_eq_none_iff {β : Type} (m : List (Pos × β)) (k : Pos) :
    lookupA m k = none ↔ k ∉ m.map Prod.fst := by
  induction m with
  | nil => simp [lookupA]
  | cons e rest ih =>
    rw [lookupA, List.map_cons]
    by_cases hk : e.1 = k
    · rw [if_pos hk]
      simp [hk]
    · rw [if_neg hk]
      rw [List.mem_cons]
      constructor
      · intro hn hc
        rcases hc with hc | hc
        · exact hk hc.symm
        · exact (ih.mp hn) hc
      · intro hn
        exact ih.mpr (fun hc => hn (Or.inr hc))

theorem lookupA_isSome_iff {β : Type} (m : List (Pos × β)) (k : Pos) :
    lookupA m k ≠ none ↔ k ∈ m.map Prod.fst := by
  rw [Ne, lookupA_eq_none_iff, not_not]

theorem lookupA_setA_self {β : Type} (m : List (Pos × β)) (k : Pos) (v : β) :
    lookupA (setA m k v) k = some v := by
  induction m with
  | nil => simp [setA, lookupA]
  | cons e rest ih =>
    rw [setA]
    by_cases hk : e.1 = k
    · rw [if_pos hk, lookupA, if_pos rfl]
    · rw [if_neg hk, lookupA, if_neg hk]
      exact ih

theorem lookupA_setA_ne {β : Type} (m : List (Pos × β)) (k k2 : Pos) (v : β)
    (h : k2 ≠ k) : lookupA (setA m k v) k2 = lookupA m k2 := by
  induction m with
  | nil =>
    simp only [setA, lookupA]
    rw [if_neg (fun hc => h hc.symm)]
  | cons e rest ih =>
    rw [setA]
    by_cases hk : e.1 = k
    · rw [if_pos hk, lookupA, lookupA, if_neg (fun hc : k = k2 => h hc.symm),
        if_neg (by rw [hk]; exact fun hc : k = k2 => h hc.symm)]
    · rw [if_neg hk, lookupA, lookupA]
      by_cases hk2 : e.1 = k2
      · rw [if_pos hk2, if_pos hk2]
      · rw [if_neg hk2, if_neg hk2]
        exact ih

theorem keys_setA {β : Type} (m : List (Pos × β)) (k : Pos) (v : β) :
    (setA m k v).map Prod.fst =
      if k ∈ m.map Prod.fst then m.map Prod.fst else m.map Prod.fst ++ [k] := by
  induction m with
  | nil => simp [setA]
  | cons e rest ih =>
    rw [setA]
    by_cases hk : e.1 = k
    · rw [if_pos hk, List.map_cons, List.map_cons,
        if_pos (by rw [List.mem_cons]; exact Or.inl hk.symm)]
      rw [hk]
    · rw [if_neg hk, List.map_cons, List.map_cons, ih]
      by_cases hmem : k ∈ rest.map Prod.fst
      · rw [if_pos hmem, if_pos (by rw [List.mem_cons]; exact Or.inr hmem)]
      · rw [if_neg hmem, if_neg (by
          rw [List.mem_cons]
          rintro (hc | hc)
          · exact hk hc.symm
          · exact hmem hc), List.cons_append]

theorem setA_length_mem {β : Type} (m : List (Pos × β)) (k : Pos) (v : β)
    (h : k ∈ m.map Prod.fst) : (setA m k v).length = m.length := by
  have := keys_setA m k v
  rw [if_pos h] at this
  have h1 : ((setA m k v).map Prod.fst).length = (m.map Prod.fst).length := by rw [this]
  simpa using h1

theorem setA_length_fresh {β : Type} (m : List (Pos × β)) (k : Pos) (v : β)
    (h : k ∉ m.map Prod.fst) : (setA m k v).length = m.length + 1 := by
  have := keys_setA m k v
  rw [if_neg h] at this
  have h1 : ((setA m k v).map Prod.fst).length = (m.map Prod.fst ++ [k]).length := by
    rw [this]
  simpa using h1

theorem mem_setA_weak {β : Type} (m : List (Pos × β)) (k : Pos) (v : β) (e : Pos × β)
    (h : e ∈ setA m k v) : e = (k, v) ∨ e ∈ m := by
  induction m with
  | nil =>
    rw [setA] at h
    rcases List.mem_cons.mp h with h2 | h2
    · exact Or.inl h2
    · exact absurd h2 (by simp)
  | cons e0 rest ih =>
    rw [setA] at h
    by_cases hk : e0.1 = k
    · rw [if_pos hk] at h
      rcases List.mem_cons.mp h with h2 | h2
      · exact Or.inl h2
      · exact Or.inr (List.mem_cons_of_mem e0 h2)
    · rw [if_neg hk] at h
      rcases List.mem_cons.mp h with h2 | h2
      · exact Or.inr (h2 ▸ List.mem_cons_self e0 rest)
      · rcases ih h2 with h3 | h3
        · exact Or.inl h3
        · exact Or.inr (List.mem_cons_of_mem e0 h3)

theorem sumG_setA (m : List (Pos × Nat)) (k : Pos) (v old : Nat)
    (h : lookupA m k = some old) : sumG (setA m k v) + old = sumG m + v := by
  induction m with
  | nil => exact absurd h (by simp [lookupA])
  | cons e rest ih =>
    rw [lookupA] at h
    rw [setA]
    by_cases hk : e.1 = k
    · rw [if_pos hk] at h ⊢
      rw [Option.some.injEq] at h
      simp only [sumG, List.map_cons, List.sum_cons]
      omega
    · rw [if_neg hk] at h ⊢
      simp only [sumG, List.map_cons, List.sum_cons]
      have := ih h
      simp only [sumG] at this
      omega

theorem sumG_setA_fresh (m : List (Pos × Nat)) (k : Pos) (v : Nat)
    (h : lookupA m k = none) : sumG (setA m k v) = sumG m + v := by
  induction m with
  | nil => simp [setA, sumG]
  | cons e rest ih =>
    rw [lookupA] at h
    rw [setA]
    by_cases hk : e.1 = k
    · rw [if_pos hk] at h
      exact absurd h (by simp)
    · rw [if_neg hk] at h ⊢
      simp only [sumG, List.map_cons, List.sum_cons]
      have := ih h
      simp only [sumG] at this
      omega

/-! ## Neighbour, chain, and heap helper lemmas -/

theorem neighbors_spec (gs : GameState) (p r : Pos) (h : r ∈ neighbors gs p) :
    validStepB gs p r = true ∧ r ≠ p ∧ is_safe r.1 r.2 gs = true ∧ inBoardP gs r := by
  rw [neighbors, List.mem_filterMap] at h
  obtain ⟨md, hmd, hf⟩ := h
  dsimp only at hf
  split at hf
  next hsafe =>
    rw [Option.some.injEq] at hf
    have hsf : is_safe r.1 r.2 gs = true := by
      rw [← hf]
      exact hsafe
    have hboard : inBoardP gs r := by
      have := (is_safe_true_iff r.1 r.2 gs).mp hsf
      exact ⟨this.1.1, this.1.2.2.1, this.1.2.1, this.1.2.2.2⟩
    refine ⟨?_, ?_, hsf, hboard⟩
    · rw [validStepB, Bool.and_eq_true]
      refine ⟨?_, hsf⟩
      rw [List.any_eq_true]
      refine ⟨md, hmd, ?_⟩
      rw [← hf]
      simp
    · simp only [DIRECTIONS, List.mem_cons, List.not_mem_nil, or_false] at hmd
      rcases hmd with rfl | rfl | rfl | rfl <;>
        · rw [← hf]
          intro hc
          rw [Prod.ext_iff] at hc
          obtain ⟨h1, h2⟩ := hc
          simp only at h1 h2
          omega
  next => exact absurd hf (by simp)

theorem mem_neighbors_of_step (gs : GameState) (p r : Pos)
    (h : validStepB gs p r = true) : r ∈ neighbors gs p := by
  rw [validStepB, Bool.and_eq_true] at h
  obtain ⟨hadj, hsafe⟩ := h
  rw [List.any_eq_true] at hadj
  obtain ⟨md, hmd, hr⟩ := hadj
  rw [Bool.and_eq_true, beq_iff_eq, beq_iff_eq] at hr
  rw [neighbors, List.mem_filterMap]
  refine ⟨md, hmd, ?_⟩
  dsimp only
  have hre : r = (p.1 + md.2.1, p.2 + md.2.2) := by
    cases r
    simp_all
  have hsafe2 : is_safe (p.1 + md.2.1) (p.2 + md.2.2) gs = true := by
    rw [hre] at hsafe
    simpa using hsafe
  rw [if_pos hsafe2, hre]

theorem validChainB_append (gs : GameState) (t : List Pos) : ∀ start c q : Pos,
    validChainB gs start t c = true → validStepB gs c q = true →
    validChainB gs start (t ++ [q]) q = true := by
  induction t with
  | nil =>
    intro start c q hc hs
    rw [validChainB, beq_iff_eq] at hc
    rw [List.nil_append, validChainB, Bool.and_eq_true, validChainB]
    exact ⟨hc ▸ hs, by simp⟩
  | cons x rest ih =>
    intro start c q hc hs
    rw [validChainB, Bool.and_eq_true] at hc
    rw [List.cons_append, validChainB, Bool.and_eq_true]
    exact ⟨hc.1, ih x c q hc.2 hs⟩

theorem removeFirst_length (l : List (Nat × Pos)) (v : Nat × Pos) (h : v ∈ l) :
    (removeFirst l v).length + 1 = l.length := by
  induction l with
  | nil => exact absurd h (by simp)
  | cons e rest ih =>
    rw [removeFirst]
    by_cases he : e = v
    · rw [if_pos he]
      simp
    · rw [if_neg he]
      have : v ∈ rest := by
        rcases List.mem_cons.mp h with h2 | h2
        · exact absurd h2.symm he
        · exact h2
      simp only [List.length_cons]
      rw [← ih this]

theorem mem_removeFirst (l : List (Nat × Pos)) (v x : Nat × Pos)
    (h : x ∈ removeFirst l v) : x ∈ l := by
  induction l with
  | nil => exact absurd h (by simp [removeFirst])
  | cons e rest ih =>
    rw [removeFirst] at h
    by_cases he : e = v
    · rw [if_pos he] at h
      exact List.mem_cons_of_mem e h
    · rw [if_neg he] at h
      rcases List.mem_cons.mp h with h2 | h2
      · exact h2 ▸ List.mem_cons_self e rest
      · exact List.mem_cons_of_mem e (ih h2)

theorem mem_removeFirst_of_ne (l : List (Nat × Pos)) (v x : Nat × Pos)
    (hx : x ∈ l) (hne : x ≠ v) : x ∈ removeFirst l v := by
  induction l with
  | nil => exact absurd hx (by simp)
  | cons e rest ih =>
    rw [removeFirst]
    by_cases he : e = v
    · rw [if_pos he]
      rcases List.mem_cons.mp hx with h2 | h2
      · exact absurd (h2.trans he) hne
      · exact h2
    · rw [if_neg he]
      rcases List.mem_cons.mp hx with h2 | h2
      · rw [h2]
        exact List.mem_cons_self e (removeFirst rest v)
      · exact List.mem_cons_of_mem e (ih h2)

theorem heapPop_none_iff (l : List (Nat × Pos)) : heapPop l = none ↔ l = [] := by
  cases l with
  | nil => simp [heapPop]
  | cons e rest => simp [heapPop]

theorem heapPop_spec (l : List (Nat × Pos)) (e : Nat × Pos) (rest : List (Nat × Pos))
    (h : heapPop l = some (e, rest)) :
    e ∈ l ∧ rest = removeFirst l e ∧ ∀ x ∈ l, entLe e x = true := by
  cases l with
  | nil => exact absurd h (by simp [heapPop])
  | cons e0 rest0 =>
    rw [heapPop] at h
    simp only [Option.some.injEq, Prod.mk.injEq] at h
    obtain ⟨he, hrest⟩ := h
    obtain ⟨hmem, hself, hall⟩ := heapMinFrom_min rest0 e0
    subst he
    refine ⟨?_, hrest.symm, ?_⟩
    · rcases hmem with h2 | h2
      · rw [h2]
        exact List.mem_cons_self e0 rest0
      · exact List.mem_cons_of_mem e0 h2
    · intro x hx
      rcases List.mem_cons.mp hx with rfl | hx2
      · exact hself
      · exact hall x hx2

theorem gscore_length_le (gs : GameState) (start : Pos) (g : List (Pos × Nat))
    (nd : (g.map Prod.fst).Nodup)
    (kb : ∀ e ∈ g, inBoardP gs e.1 ∨ e.1 = start) :
    g.length ≤ cellCount gs := by
  classical
  have hsub : (g.map Prod.fst).toFinset ⊆
      insert start ((Finset.Icc (0 : Int) (gs.board.width - 1)) ×ˢ
        (Finset.Icc (0 : Int) (gs.board.height - 1))) := by
    intro p hp
    rw [List.mem_toFinset, List.mem_map] at hp
    obtain ⟨ep, hep, hpe⟩ := hp
    rcases kb ep hep with hb | hst
    · rw [Finset.mem_insert]
      right
      rw [Finset.mem_product, Finset.mem_Icc, Finset.mem_Icc]
      obtain ⟨h1, h2, h3, h4⟩ := hb
      rw [← hpe]
      constructor <;> constructor <;> omega
    · rw [Finset.mem_insert]
      left
      rw [← hpe, hst]
  have hcard1 : (g.map Prod.fst).toFinset.card ≤
      (insert start ((Finset.Icc (0 : Int) (gs.board.width - 1)) ×ˢ
        (Finset.Icc (0 : Int) (gs.board.height - 1)))).card :=
    Finset.card_le_card hsub
  have hcard2 : ((Finset.Icc (0 : Int) (gs.board.width - 1)) ×ˢ
      (Finset.Icc (0 : Int) (gs.board.height - 1))).card =
      gs.board.width.toNat * gs.board.height.toNat := by
    rw [Finset.card_product, Int.card_Icc, Int.card_Icc]
    congr 1 <;> · congr 1; omega
  have hlen : (g.map Prod.fst).toFinset.card = g.length := by
    rw [List.toFinset_card_of_nodup nd, List.length_map]
  calc g.length = (g.map Prod.fst).toFinset.card := hlen.symm
    _ ≤ _ := hcard1
    _ ≤ ((Finset.Icc (0 : Int) (gs.board.width - 1)) ×ˢ
          (Finset.Icc (0 : Int) (gs.board.height - 1))).card + 1 :=
        Finset.card_insert_le _ _
    _ ≤ cellCount gs := by
        rw [hcard2, cellCount]

/-! ## Relaxation-step lemmas -/

theorem setA_length_ge {β : Type} (m : List (Pos × β)) (k : Pos) (v : β) :
    m.length ≤ (setA m k v).length := by
  by_cases h : k ∈ m.map Prod.fst
  · rw [setA_length_mem m k v h]
  · rw [setA_length_fresh m k v h]
    omega

theorem setA_length_le {β : Type} (m : List (Pos × β)) (k : Pos) (v : β) :
    (setA m k v).length ≤ m.length + 1 := by
  by_cases h : k ∈ m.map Prod.fst
  · rw [setA_length_mem m k v h]
    omega
  · rw [setA_length_fresh m k v h]

theorem keys_setA_mono {β : Type} (m : List (Pos × β)) (k p : Pos) (v : β)
    (h : p ∈ m.map Prod.fst) : p ∈ (setA m k v).map Prod.fst := by
  rw [keys_setA]
  by_cases hm : k ∈ m.map Prod.fst
  · rw [if_pos hm]
    exact h
  · rw [if_neg hm]
    exact List.mem_append_left _ h

theorem mem_keys_setA_self {β : Type} (m : List (Pos × β)) (k : Pos) (v : β) :
    k ∈ (setA m k v).map Prod.fst := by
  rw [keys_setA]
  by_cases hm : k ∈ m.map Prod.fst
  · rw [if_pos hm]
    exact hm
  · rw [if_neg hm]
    exact List.mem_append_right _ (by simp)

theorem mem_keys_setA {β : Type} (m : List (Pos × β)) (k p : Pos) (v : β)
    (hne : p ≠ k) (h : p ∈ (setA m k v).map Prod.fst) : p ∈ m.map Prod.fst := by
  rw [keys_setA] at h
  by_cases hm : k ∈ m.map Prod.fst
  · rw [if_pos hm] at h
    exact h
  · rw [if_neg hm] at h
    rcases List.mem_append.mp h with h2 | h2
    · exact h2
    · exact absurd (by simpa using h2) hne

theorem relax_split (gs : GameState) (goal current : Pos) (st : SearchState) (nbr : Pos) :
    (∃ gn, lookupA st.g_score nbr = some gn ∧
      gn ≤ (lookupA st.g_score current).getD 0 + 1 ∧
      relax gs goal current st nbr = st)
    ∨ (relax gs goal current st nbr =
        { heap := ((lookupA st.g_score current).getD 0 + 1 +
              manhattan_distance nbr goal, nbr) :: st.heap,
          came_from := setA st.came_from nbr current,
          g_score := setA st.g_score nbr
            ((lookupA st.g_score current).getD 0 + 1) } ∧
      (lookupA st.g_score nbr = none ∨
        ∃ gn, lookupA st.g_score nbr = some gn ∧
          (lookupA st.g_score current).getD 0 + 1 < gn)) := by
  rw [relax]
  cases hgn : lookupA st.g_score nbr with
  | some gn =>
    dsimp only
    by_cases hlt : (lookupA st.g_score current).getD 0 + 1 < gn
    · right
      rw [if_pos hlt]
      exact ⟨rfl, Or.inr ⟨gn, rfl, hlt⟩⟩
    · left
      rw [if_neg hlt]
      exact ⟨gn, rfl, by omega, rfl⟩
  | none =>
    dsimp only
    right
    exact ⟨rfl, Or.inl rfl⟩

theorem relax_all (gs : GameState) (start goal current nbr : Pos) (st : SearchState)
    (hR : RInv gs start st)
    (hnbr : nbr ∈ neighbors gs current)
    (hcurk : current ∈ st.g_score.map Prod.fst) :
    RInv gs start (relax gs goal current st nbr) ∧
    phi gs (relax gs goal current st nbr) ≤ phi gs st ∧
    (∀ x ∈ st.heap, x ∈ (relax gs goal current st nbr).heap) ∧
    (∀ k v0, lookupA st.g_score k = some v0 →
      ∃ v', lookupA (relax gs goal current st nbr).g_score k = some v' ∧ v' ≤ v0) ∧
    (∀ k, lookupA (relax gs goal current st nbr).g_score k = lookupA st.g_score k ∨
      ∃ v', lookupA (relax gs goal current st nbr).g_score k = some v' ∧
        (v' + manhattan_distance k goal, k) ∈ (relax gs goal current st nbr).heap) ∧
    (∀ k, k ≠ nbr →
      lookupA (relax gs goal current st nbr).g_score k = lookupA st.g_score k) ∧
    (∃ gr, lookupA (relax gs goal current st nbr).g_score nbr = some gr ∧
      gr ≤ (lookupA st.g_score current).getD 0 + 1) ∧
    (∀ x ∈ (relax gs goal current st nbr).heap, x ∈ st.heap ∨
      ∃ v', lookupA (relax gs goal current st nbr).g_score x.2 = some v' ∧
        v' + manhattan_distance x.2 goal ≤ x.1) := by
  obtain ⟨hstep, hnec, hsafe, hboard⟩ := neighbors_spec gs current nbr hnbr
  obtain ⟨gc, hgc⟩ : ∃ gc, lookupA st.g_score current = some gc := by
    cases hcg : lookupA st.g_score current with
    | some gc => exact ⟨gc, rfl⟩
    | none => exact absurd ((lookupA_eq_none_iff _ _).mp hcg) (by simpa using hcurk)
  have hgcb : gc < st.g_score.length := hR.vb (current, gc) (lookupA_mem _ _ _ hgc)
  have htent : (lookupA st.g_score current).getD 0 + 1 = gc + 1 := by rw [hgc]; rfl
  rcases relax_split gs goal current st nbr with ⟨gn, hgn, hle, heq⟩ | ⟨heq, hcase⟩
  · rw [heq]
    exact ⟨hR, le_refl _, fun x hx => hx, fun k v0 hk0 => ⟨v0, hk0, le_refl v0⟩,
      fun k => Or.inl rfl, fun k _ => rfl, ⟨gn, hgn, hle⟩, fun x hx => Or.inl hx⟩
  · have hnstart : nbr ≠ start := by
      intro hns
      rcases hcase with hnone | ⟨gn, hgn, hlt⟩
      · rw [hns, hR.g0] at hnone
        exact absurd hnone (by simp)
      · rw [hns, hR.g0] at hgn
        rw [Option.some.injEq] at hgn
        omega
    rw [heq]
    have hcne : current ≠ nbr := fun hc => hnec hc.symm
    have hsne : start ≠ nbr := fun hc => hnstart hc.symm
    have hsnd_new : ∃ t, validChainB gs start t nbr = true ∧
        t.length = (lookupA st.g_score current).getD 0 + 1 := by
      obtain ⟨t, hch, hlt⟩ := hR.snd (current, gc) (lookupA_mem _ _ _ hgc)
      refine ⟨t ++ [nbr], validChainB_append gs t start current nbr hch hstep, ?_⟩
      rw [List.length_append, hlt, htent]
      rfl
    rcases hcase with hnone | ⟨gn, hgn, hlt⟩
    · -- fresh key
      have hnk : nbr ∉ st.g_score.map Prod.fst := (lookupA_eq_none_iff _ _).mp hnone
      have hkeys : (setA st.g_score nbr ((lookupA st.g_score current).getD 0 + 1)).map
          Prod.fst = st.g_score.map Prod.fst ++ [nbr] := by
        rw [keys_setA, if_neg hnk]
      have hlen : (setA st.g_score nbr
          ((lookupA st.g_score current).getD 0 + 1)).length = st.g_score.length + 1 :=
        setA_length_fresh _ _ _ hnk
      have hcfnone : lookupA st.came_from nbr = none := by
        cases hcf : lookupA st.came_from nbr with
        | none => rfl
        | some q =>
          have := (hR.cfk nbr).mp (by rw [hcf]; simp)
          exact absurd this.1 hnk
      have hnkcf : nbr ∉ st.came_from.map Prod.fst := (lookupA_eq_none_iff _ _).mp hcfnone
      have hnd2 : ((setA st.g_score nbr
          ((lookupA st.g_score current).getD 0 + 1)).map Prod.fst).Nodup := by
        rw [hkeys]
        refine List.nodup_append.mpr ⟨hR.nd, List.nodup_singleton _, ?_⟩
        intro a ha hb
        rw [List.mem_singleton] at hb
        exact hnk (hb ▸ ha)
      have hkb2 : ∀ e ∈ setA st.g_score nbr ((lookupA st.g_score current).getD 0 + 1),
          inBoardP gs e.1 ∨ e.1 = start := by
        intro e he
        rcases mem_setA_weak _ _ _ _ he with rfl | he2
        · exact Or.inl hboard
        · exact hR.kb e he2
      have hNle : (setA st.g_score nbr
          ((lookupA st.g_score current).getD 0 + 1)).length ≤ cellCount gs :=
        gscore_length_le gs start _ hnd2 hkb2
      refine ⟨⟨hnd2, hkb2, ?_, ?_, ?_, ?_, ?_, ?_, ?_⟩, ?_, ?_, ?_, ?_, ?_, ?_, ?_⟩
      · -- vb
        intro e he
        rw [hlen]
        rcases mem_setA_weak _ _ _ _ he with rfl | he2
        · dsimp only
          omega
        · have := hR.vb e he2
          omega
      · -- g0
        rw [lookupA_setA_ne _ _ _ _ hsne]
        exact hR.g0
      · -- snd
        intro e he
        rcases mem_setA_weak _ _ _ _ he with rfl | he2
        · exact hsnd_new
        · exact hR.snd e he2
      · -- cfk
        intro p
        by_cases hp : p = nbr
        · subst hp
          rw [lookupA_setA_self]
          simp only [ne_eq, reduceCtorEq, not_false_eq_true, true_iff]
          exact ⟨mem_keys_setA_self _ _ _, hnstart⟩
        · rw [lookupA_setA_ne _ _ _ _ hp]
          rw [hR.cfk p]
          constructor
          · rintro ⟨h1, h2⟩
            exact ⟨keys_setA_mono _ _ _ _ h1, h2⟩
          · rintro ⟨h1, h2⟩
            exact ⟨mem_keys_setA _ _ _ _ hp h1, h2⟩
      · -- cfs
        intro p q hpq
        by_cases hp : p = nbr
        · subst hp
          rw [lookupA_setA_self, Option.some.injEq] at hpq
          subst hpq
          refine ⟨(lookupA st.g_score current).getD 0 + 1, gc, lookupA_setA_self _ _ _,
            ?_, by omega, hstep⟩
          rw [lookupA_setA_ne _ _ _ _ hcne]
          exact hgc
        · rw [lookupA_setA_ne _ _ _ _ hp] at hpq
          obtain ⟨gp, gq, hgp, hgq, hlt2, hstep2⟩ := hR.cfs p q hpq
          have hq : q ≠ nbr := by
            intro hqc
            rw [hqc, hnone] at hgq
            exact absurd hgq (by simp)
          exact ⟨gp, gq, by rw [lookupA_setA_ne _ _ _ _ hp]; exact hgp,
            by rw [lookupA_setA_ne _ _ _ _ hq]; exact hgq, hlt2, hstep2⟩
      · -- cfl
        rw [hlen, setA_length_fresh _ _ _ hnkcf]
        have := hR.cfl
        omega
      · -- hk
        intro e he
        rcases List.mem_cons.mp he with rfl | he2
        · exact mem_keys_setA_self _ _ _
        · exact keys_setA_mono _ _ _ _ (hR.hk e he2)
      · -- phi
        simp only [phi, List.length_cons]
        rw [hlen, sumG_setA_fresh _ _ _ hnone]
        have hmul : (cellCount gs + 2) * (cellCount gs - st.g_score.length) =
            (cellCount gs + 2) * (cellCount gs - (st.g_score.length + 1)) +
              (cellCount gs + 2) := by
          have h1 : cellCount gs - st.g_score.length =
              (cellCount gs - (st.g_score.length + 1)) + 1 := by omega
          rw [h1, Nat.mul_add, Nat.mul_one]
        rw [hmul]
        omega
      · -- heap mono
        intro x hx
        exact List.mem_cons_of_mem _ hx
      · -- g mono
        intro k v0 hk0
        by_cases hk : k = nbr
        · rw [hk, hnone] at hk0
          exact absurd hk0 (by simp)
        · exact ⟨v0, by rw [lookupA_setA_ne _ _ _ _ hk]; exact hk0, le_refl v0⟩
      · -- char
        intro k
        by_cases hk : k = nbr
        · subst hk
          exact Or.inr ⟨(lookupA st.g_score current).getD 0 + 1, lookupA_setA_self _ _ _,
            List.mem_cons_self _ _⟩
        · exact Or.inl (lookupA_setA_ne _ _ _ _ hk)
      · -- lookup ne
        intro k hk
        exact lookupA_setA_ne _ _ _ _ hk
      · -- nbr bound
        exact ⟨(lookupA st.g_score current).getD 0 + 1, lookupA_setA_self _ _ _, le_refl _⟩
      · -- heap entries backed by the dictionary
        intro x hx
        rcases List.mem_cons.mp hx with rfl | hx2
        · exact Or.inr ⟨(lookupA st.g_score current).getD 0 + 1,
            lookupA_setA_self _ _ _, le_refl _⟩
        · exact Or.inl hx2
    · -- improvement of an existing key
      have hnk : nbr ∈ st.g_score.map Prod.fst := by
        rw [← lookupA_isSome_iff]
        rw [hgn]
        simp
      have hkeys : (setA st.g_score nbr ((lookupA st.g_score current).getD 0 + 1)).map
          Prod.fst = st.g_score.map Prod.fst := by
        rw [keys_setA, if_pos hnk]
      have hlen : (setA st.g_score nbr
          ((lookupA st.g_score current).getD 0 + 1)).length = st.g_score.length :=
        setA_length_mem _ _ _ hnk
      have hgnb : gn < st.g_score.length := hR.vb (nbr, gn) (lookupA_mem _ _ _ hgn)
      refine ⟨⟨?_, ?_, ?_, ?_, ?_, ?_, ?_, ?_, ?_⟩, ?_, ?_, ?_, ?_, ?_, ?_, ?_⟩
      · rw [hkeys]
        exact hR.nd
      · intro e he
        rcases mem_setA_weak _ _ _ _ he with rfl | he2
        · exact Or.inl hboard
        · exact hR.kb e he2
      · intro e he
        rw [hlen]
        rcases mem_setA_weak _ _ _ _ he with rfl | he2
        · dsimp only
          omega
        · exact hR.vb e he2
      · rw [lookupA_setA_ne _ _ _ _ hsne]
        exact hR.g0
      · intro e he
        rcases mem_setA_weak _ _ _ _ he with rfl | he2
        · exact hsnd_new
        · exact hR.snd e he2
      · intro p
        by_cases hp : p = nbr
        · subst hp
          rw [lookupA_setA_self]
          simp only [ne_eq, reduceCtorEq, not_false_eq_true, true_iff]
          exact ⟨mem_keys_setA_self _ _ _, hnstart⟩
        · rw [lookupA_setA_ne _ _ _ _ hp, hR.cfk p]
          constructor
          · rintro ⟨h1, h2⟩
            exact ⟨keys_setA_mono _ _ _ _ h1, h2⟩
          · rintro ⟨h1, h2⟩
            exact ⟨mem_keys_setA _ _ _ _ hp h1, h2⟩
      · intro p q hpq
        by_cases hp : p = nbr
        · subst hp
          rw [lookupA_setA_self, Option.some.injEq] at hpq
          subst hpq
          refine ⟨(lookupA st.g_score current).getD 0 + 1, gc, lookupA_setA_self _ _ _,
            ?_, by omega, hstep⟩
          rw [lookupA_setA_ne _ _ _ _ hcne]
          exact hgc
        · rw [lookupA_setA_ne _ _ _ _ hp] at hpq
          obtain ⟨gp, gq, hgp, hgq, hlt2, hstep2⟩ := hR.cfs p q hpq
          by_cases hq : q = nbr
          · subst hq
            have hgqe : gq = gn := by
              rw [hgn, Option.some.injEq] at hgq
              exact hgq.symm
            refine ⟨gp, (lookupA st.g_score current).getD 0 + 1,
              by rw [lookupA_setA_ne _ _ _ _ hp]; exact hgp,
              lookupA_setA_self _ _ _, by omega, hstep2⟩
          · exact ⟨gp, gq, by rw [lookupA_setA_ne _ _ _ _ hp]; exact hgp,
              by rw [lookupA_setA_ne _ _ _ _ hq]; exact hgq, hlt2, hstep2⟩
      · rw [hlen]
        calc st.g_score.length ≤ st.came_from.length + 1 := hR.cfl
          _ ≤ (setA st.came_from nbr current).length + 1 := by
              have := setA_length_ge st.came_from nbr current
              omega
      · intro e he
        rcases List.mem_cons.mp he with rfl | he2
        · exact mem_keys_setA_self _ _ _
        · exact keys_setA_mono _ _ _ _ (hR.hk e he2)
      · simp only [phi, List.length_cons]
        rw [hlen]
        have hsum := sumG_setA st.g_score nbr ((lookupA st.g_score current).getD 0 + 1)
          gn hgn
        omega
      · intro x hx
        exact List.mem_cons_of_mem _ hx
      · intro k v0 hk0
        by_cases hk : k = nbr
        · subst hk
          have hv0 : v0 = gn := by
            rw [hgn, Option.some.injEq] at hk0
            exact hk0.symm
          exact ⟨(lookupA st.g_score current).getD 0 + 1, lookupA_setA_self _ _ _,
            by omega⟩
        · exact ⟨v0, by rw [lookupA_setA_ne _ _ _ _ hk]; exact hk0, le_refl v0⟩
      · intro k
        by_cases hk : k = nbr
        · subst hk
          exact Or.inr ⟨(lookupA st.g_score current).getD 0 + 1, lookupA_setA_self _ _ _,
            List.mem_cons_self _ _⟩
        · exact Or.inl (lookupA_setA_ne _ _ _ _ hk)
      · intro k hk
        exact lookupA_setA_ne _ _ _ _ hk
      · exact ⟨(lookupA st.g_score current).getD 0 + 1, lookupA_setA_self _ _ _,
          le_refl _⟩
      · intro x hx
        rcases List.mem_cons.mp hx with rfl | hx2
        · exact Or.inr ⟨(lookupA st.g_score current).getD 0 + 1,
            lookupA_setA_self _ _ _, le_refl _⟩
        · exact Or.inl hx2

theorem foldl_relax_all (gs : GameState) (start goal current : Pos)
    (nbrs : List Pos) : ∀ st : SearchState,
    RInv gs start st →
    (∀ r ∈ nbrs, r ∈ neighbors gs current) →
    current ∈ st.g_score.map Prod.fst →
    RInv gs start (List.foldl (relax gs goal current) st nbrs) ∧
    phi gs (List.foldl (relax gs goal current) st nbrs) ≤ phi gs st ∧
    (∀ x ∈ st.heap, x ∈ (List.foldl (relax gs goal current) st nbrs).heap) ∧
    (∀ k v0, lookupA st.g_score k = some v0 →
      ∃ v', lookupA (List.foldl (relax gs goal current) st nbrs).g_score k = some v' ∧
        v' ≤ v0) ∧
    (∀ k, lookupA (List.foldl (relax gs goal current) st nbrs).g_score k =
        lookupA st.g_score k ∨
      ∃ v', lookupA (List.foldl (relax gs goal current) st nbrs).g_score k = some v' ∧
        (v' + manhattan_distance k goal, k) ∈
          (List.foldl (relax gs goal current) st nbrs).heap) ∧
    (lookupA (List.foldl (relax gs goal current) st nbrs).g_score current =
      lookupA st.g_score current) ∧
    (∀ r ∈ nbrs, ∃ gr,
      lookupA (List.foldl (relax gs goal current) st nbrs).g_score r = some gr ∧
        gr ≤ (lookupA st.g_score current).getD 0 + 1) ∧
    (∀ x ∈ (List.foldl (relax gs goal current) st nbrs).heap, x ∈ st.heap ∨
      ∃ v', lookupA (List.foldl (relax gs goal current) st nbrs).g_score x.2 = some v' ∧
        v' + manhattan_distance x.2 goal ≤ x.1) := by
  induction nbrs with
  | nil =>
    intro st hR _ hcurk
    exact ⟨hR, le_refl _, fun x hx => hx, fun k v0 hk0 => ⟨v0, hk0, le_refl v0⟩,
      fun k => Or.inl rfl, rfl, by simp, fun x hx => Or.inl hx⟩
  | cons r rest ih =>
    intro st hR hnbrs hcurk
    have hrmem : r ∈ neighbors gs current := hnbrs r (List.mem_cons_self r rest)
    have hcr : current ≠ r := fun hc => (neighbors_spec gs current r hrmem).2.1 hc.symm
    obtain ⟨hR1, hphi1, hheap1, hmono1, hchar1, hne1, hbound1, hH1⟩ :=
      relax_all gs start goal current r st hR hrmem hcurk
    have hstab1 : lookupA (relax gs goal current st r).g_score current =
        lookupA st.g_score current := hne1 current hcr
    have hcurk1 : current ∈ (relax gs goal current st r).g_score.map Prod.fst := by
      rw [← lookupA_isSome_iff, hstab1, lookupA_isSome_iff]
      exact hcurk
    rw [List.foldl_cons]
    obtain ⟨ihR, ihphi, ihheap, ihmono, ihchar, ihstab, ihbound, ihH⟩ :=
      ih (relax gs goal current st r) hR1 (fun x hx => hnbrs x (List.mem_cons_of_mem r hx))
        hcurk1
    refine ⟨ihR, le_trans ihphi hphi1, fun x hx => ihheap x (hheap1 x hx), ?_, ?_, ?_, ?_,
      ?_⟩
    · intro k v0 hk0
      obtain ⟨v1, hv1, hle1⟩ := hmono1 k v0 hk0
      obtain ⟨v2, hv2, hle2⟩ := ihmono k v1 hv1
      exact ⟨v2, hv2, le_trans hle2 hle1⟩
    · intro k
      rcases ihchar k with heq2 | hpush2
      · rcases hchar1 k with heq1 | ⟨v', hv', hent⟩
        · exact Or.inl (heq2.trans heq1)
        · exact Or.inr ⟨v', heq2.trans hv', ihheap _ hent⟩
      · exact Or.inr hpush2
    · rw [ihstab, hstab1]
    · intro r2 hr2
      rcases List.mem_cons.mp hr2 with rfl | hr22
      · obtain ⟨gr, hgr, hgrle⟩ := hbound1
        obtain ⟨gr2, hgr2, hgrle2⟩ := ihmono r2 gr hgr
        exact ⟨gr2, hgr2, le_trans hgrle2 hgrle⟩
      · obtain ⟨gr, hgr, hgrle⟩ := ihbound r2 hr22
        rw [hstab1] at hgrle
        exact ⟨gr, hgr, hgrle⟩
    · intro x hx
      rcases ihH x hx with hx1 | ⟨v', hv', hle⟩
      · rcases hH1 x hx1 with hx0 | ⟨v', hv', hle⟩
        · exact Or.inl hx0
        · obtain ⟨v2, hv2, hle2⟩ := ihmono x.2 v' hv'
          refine Or.inr ⟨v2, hv2, le_trans ?_ hle⟩
          omega
      · exact Or.inr ⟨v', hv', hle⟩

theorem lookupA_eq_of_mem_nodup {β : Type} (m : List (Pos × β)) (k : Pos) (v : β)
    (nd : (m.map Prod.fst).Nodup) (h : (k, v) ∈ m) : lookupA m k = some v := by
  induction m with
  | nil => exact absurd h (by simp)
  | cons e rest ih =>
    rw [List.map_cons, List.nodup_cons] at nd
    rw [lookupA]
    rcases List.mem_cons.mp h with h2 | h2
    · rw [← h2]
      rw [if_pos rfl]
    · have hne : e.1 ≠ k := by
        intro hc
        exact nd.1 (hc ▸ (List.mem_map.mpr ⟨(k, v), h2, rfl⟩))
      rw [if_neg hne]
      exact ih nd.2 h2

theorem manhattan_self (p : Pos) : manhattan_distance p p = 0 := by
  simp [manhattan_distance]

theorem step_preserves (gs : GameState) (start goal : Pos) (st : SearchState)
    (hS : SInv gs start goal st)
    (e : Nat × Pos) (rest : List (Nat × Pos))
    (hpop : heapPop st.heap = some (e, rest))
    (hng : e.2 ≠ goal) :
    SInv gs start goal (List.foldl (relax gs goal e.2)
      { heap := rest, came_from := st.came_from, g_score := st.g_score }
      (neighbors gs e.2)) ∧
    phi gs (List.foldl (relax gs goal e.2)
      { heap := rest, came_from := st.came_from, g_score := st.g_score }
      (neighbors gs e.2)) < phi gs st := by
  obtain ⟨hmemb, hrest, hmin⟩ := heapPop_spec st.heap e rest hpop
  have hcurk : e.2 ∈ st.g_score.map Prod.fst := hS.hk e hmemb
  have hrestmem : ∀ x ∈ rest, x ∈ st.heap := by
    intro x hx
    rw [hrest] at hx
    exact mem_removeFirst _ _ _ hx
  have hR0 : RInv gs start
      { heap := rest, came_from := st.came_from, g_score := st.g_score } :=
    ⟨hS.nd, hS.kb, hS.vb, hS.g0, hS.snd, hS.cfk, hS.cfs, hS.cfl,
      fun x hx => hS.hk x (hrestmem x hx)⟩
  obtain ⟨fR, fphi, fheap, fmono, fchar, fstab, fbound, fH⟩ :=
    foldl_relax_all gs start goal e.2 (neighbors gs e.2) _ hR0 (fun r hr => hr) hcurk
  constructor
  · refine ⟨fR.nd, fR.kb, fR.vb, fR.hk, fR.g0, fR.snd, fR.cfk, fR.cfs, fR.cfl, ?_, ?_, ?_⟩
    · -- hs
      intro x hx
      rcases fH x hx with hx0 | ⟨v', hv', hle⟩
      · rcases hS.hs x (hrestmem x hx0) with ⟨gp, hgp, hle2⟩ | hx_start
        · obtain ⟨gp', hgp', hle3⟩ := fmono x.2 gp hgp
          exact Or.inl ⟨gp', hgp', by omega⟩
        · exact Or.inr hx_start
      · exact Or.inl ⟨v', hv', hle⟩
    · -- fr
      intro e2 he2
      have hv : lookupA (List.foldl (relax gs goal e.2)
          { heap := rest, came_from := st.came_from, g_score := st.g_score }
          (neighbors gs e.2)).g_score e2.1 = some e2.2 :=
        lookupA_eq_of_mem_nodup _ _ _ fR.nd (by rw [Prod.mk.eta]; exact he2)
      rcases fchar e2.1 with heqc | ⟨v', hv', hent⟩
      · have h0 : lookupA st.g_score e2.1 = some e2.2 := by
          rw [heqc] at hv
          exact hv
        have hmem0 : (e2.1, e2.2) ∈ st.g_score := lookupA_mem _ _ _ h0
        rcases hS.fr (e2.1, e2.2) hmem0 with ⟨f, hfent, hfle⟩ | hallr
        · by_cases hfe : (f, e2.1) = e
          · have hcur : e2.1 = e.2 := by rw [← hfe]
            right
            intro r hr
            obtain ⟨gr, hgr, hgrle⟩ := fbound r (by rw [← hcur]; exact hr)
            refine ⟨gr, hgr, ?_⟩
            have hl0 : lookupA st.g_score e.2 = some e2.2 := by
              rw [← hcur]
              exact h0
            rw [hl0] at hgrle
            exact hgrle
          · left
            have hrx : (f, e2.1) ∈ rest := by
              rw [hrest]
              exact mem_removeFirst_of_ne _ _ _ hfent hfe
            exact ⟨f, fheap _ hrx, hfle⟩
        · right
          intro r hr
          obtain ⟨gr, hgr, hgrle⟩ := hallr r hr
          obtain ⟨gr', hgr', hle'⟩ := fmono r gr hgr
          exact ⟨gr', hgr', by omega⟩
      · have hveq : v' = e2.2 := by
          rw [hv] at hv'
          rw [Option.some.injEq] at hv'
          exact hv'.symm
        left
        refine ⟨v' + manhattan_distance e2.1 goal, hent, ?_⟩
        rw [hveq]
    · -- gl
      intro gg hgg
      rcases fchar goal with heqc | ⟨v', hv', hent⟩
      · rw [heqc] at hgg
        obtain ⟨f, hfent, hfle⟩ := hS.gl gg hgg
        have hne2 : (f, goal) ≠ e := by
          intro hc
          exact hng (by rw [← hc])
        have hfr : (f, goal) ∈ rest := by
          rw [hrest]
          exact mem_removeFirst_of_ne _ _ _ hfent hne2
        exact ⟨f, fheap _ hfr, hfle⟩
      · have hveq : v' = gg := by
          rw [hgg] at hv'
          rw [Option.some.injEq] at hv'
          exact hv'.symm
        refine ⟨v' + manhattan_distance goal goal, hent, ?_⟩
        rw [manhattan_self, hveq]
        omega
  · -- strict measure decrease
    have hlen := removeFirst_length st.heap e hmemb
    have h0 : phi gs { heap := rest, came_from := st.came_from, g_score := st.g_score }
        + 1 = phi gs st := by
      simp only [phi]
      rw [hrest]
      omega
    omega

theorem init_SInv (gs : GameState) (start goal : Pos) :
    SInv gs start goal
      { heap := [(0, start)], came_from := [], g_score := [(start, 0)] } := by
  refine ⟨?_, ?_, ?_, ?_, ?_, ?_, ?_, ?_, ?_, ?_, ?_, ?_⟩
  · simp
  · intro e he
    rw [List.mem_singleton] at he
    rw [he]
    exact Or.inr rfl
  · intro e he
    rw [List.mem_singleton] at he
    rw [he]
    simp
  · intro e he
    rw [List.mem_singleton] at he
    rw [he]
    simp
  · rw [lookupA, if_pos rfl]
  · intro e he
    rw [List.mem_singleton] at he
    rw [he]
    exact ⟨[], by rw [validChainB]; simp, rfl⟩
  · intro p
    simp only [lookupA, ne_eq, not_true_eq_false, false_iff, not_and, List.map_cons,
      List.map_nil, List.mem_singleton]
    intro hp hne
    exact hne hp
  · intro p q hpq
    exact absurd hpq (by simp [lookupA])
  · simp
  · intro e he
    rw [List.mem_singleton] at he
    exact Or.inr he
  · intro e he
    rw [List.mem_singleton] at he
    refine Or.inl ⟨0, ?_, ?_⟩
    · rw [he]
      simp
    · rw [he]
      omega
  · intro gg hgg
    rw [lookupA] at hgg
    by_cases hgoal : start = goal
    · rw [if_pos hgoal] at hgg
      rw [Option.some.injEq] at hgg
      refine ⟨0, ?_, by omega⟩
      rw [← hgoal]
      simp
    · rw [if_neg hgoal] at hgg
      exact absurd hgg (by simp [lookupA])

theorem init_phi_lt (gs : GameState) (start : Pos) :
    phi gs { heap := [(0, start)], came_from := [], g_score := [(start, 0)] } <
      searchFuel gs := by
  have hsf : searchFuel gs = (cellCount gs + 2) * (cellCount gs + 2) := by
    rw [searchFuel, cellCount, pow_two]
  simp only [phi, List.length_singleton, sumG, List.map_cons, List.map_nil,
    List.sum_cons, List.sum_nil]
  rw [hsf]
  have hN : 1 ≤ cellCount gs := by
    rw [cellCount]
    omega
  have hexp : (cellCount gs + 2) * (cellCount gs + 2) =
      (cellCount gs + 2) * (cellCount gs - 1) + (cellCount gs + 2) * 3 := by
    have h1 : cellCount gs + 2 = (cellCount gs - 1) + 3 := by omega
    calc (cellCount gs + 2) * (cellCount gs + 2)
        = (cellCount gs + 2) * ((cellCount gs - 1) + 3) := by rw [← h1]
      _ = (cellCount gs + 2) * (cellCount gs - 1) + (cellCount gs + 2) * 3 := by
          rw [Nat.mul_add]
  rw [hexp]
  omega

theorem find_path_aux_fuel_stable (gs : GameState) (start goal : Pos) :
    ∀ fuel : Nat, ∀ st : SearchState, SInv gs start goal st → phi gs st < fuel →
    ∀ k : Nat,
      find_path_aux gs start goal fuel st = find_path_aux gs start goal (fuel + k) st := by
  intro fuel
  induction fuel using Nat.strong_induction_on with
  | _ fuel ih =>
    intro st hS hphi k
    cases fuel with
    | zero => omega
    | succ f =>
      have hk : f + 1 + k = (f + k) + 1 := by omega
      rw [hk]
      rw [find_path_aux, find_path_aux]
      cases hpop : heapPop st.heap with
      | none => rfl
      | some pr =>
        obtain ⟨e, rest⟩ := pr
        dsimp only
        by_cases hg : e.2 = goal
        · rw [if_pos hg, if_pos hg]
        · rw [if_neg hg, if_neg hg]
          obtain ⟨hS2, hphi2⟩ := step_preserves gs start goal st hS e rest hpop hg
          exact ih f (by omega) _ hS2 (by omega) k

theorem find_path_exp_aux_len (gs : GameState) (start goal : Pos) :
    ∀ fuel : Nat, ∀ st : SearchState, ∀ acc : List Pos, SInv gs start goal st →
    (find_path_exp_aux gs goal fuel st acc).length ≤ acc.length + phi gs st := by
  intro fuel
  induction fuel using Nat.strong_induction_on with
  | _ fuel ih =>
    intro st acc hS
    cases fuel with
    | zero =>
      rw [find_path_exp_aux]
      simp
    | succ f =>
      rw [find_path_exp_aux]
      cases hpop : heapPop st.heap with
      | none => simp
      | some pr =>
        obtain ⟨e, rest⟩ := pr
        dsimp only
        by_cases hg : e.2 = goal
        · rw [if_pos hg]
          simp
        · rw [if_neg hg]
          obtain ⟨hS2, hphi2⟩ := step_preserves gs start goal st hS e rest hpop hg
          have := ih f (by omega) _ (e.2 :: acc) hS2
          calc (find_path_exp_aux gs goal f _ (e.2 :: acc)).length
              ≤ (e.2 :: acc).length + phi gs (List.foldl (relax gs goal e.2)
                  { heap := rest, came_from := st.came_from, g_score := st.g_score }
                  (neighbors gs e.2)) := this
            _ ≤ acc.length + phi gs st := by
                simp only [List.length_cons]
                omega

/-! ## C7: termination and expansion bounds of the search -/

/-- C7 fails on the code at this input: on the empty 4 by 3 board `gsDrain`
with start (3, 0) and unreachable goal (-5, 2), the search performs 15 node
expansions — more than width times height = 12 — and expands some cells more
than once (there is no visited set, and stale heap entries are re-expanded). -/
theorem C7_counterexample :
    ¬ (find_path_expansions (3, 0) (-5, 2) gsDrain).Nodup ∧
    (find_path_expansions (3, 0) (-5, 2) gsDrain).length = 15 ∧
    gsDrain.board.width.toNat * gsDrain.board.height.toNat = 12 := by
  decide

/-- C7 amended: the search always terminates — enlarging the fuel beyond
`searchFuel gs` (which is (width*height + 3) squared) never changes the
result, because the loop measure `phi` strictly decreases at every iteration —
and the number of node expansions is at most `searchFuel gs`.  Without a
visited set a cell can be expanded more than once, so the claimed
width*height bound with single expansion discipline does not hold (see the
counterexample); the fuel bound above is the invariant actually maintained. -/
theorem C7_amended_search_bounded (start goal : Pos) (gs : GameState) (k : Nat)
    (h : gs.you.body ≠ []) :
    find_path_aux gs start goal (searchFuel gs + k)
        { heap := [(0, start)], came_from := [], g_score := [(start, 0)] } =
      find_path start goal gs ∧
    (find_path_expansions start goal gs).length ≤ searchFuel gs := by
  constructor
  · rw [find_path]
    exact (find_path_aux_fuel_stable gs start goal (searchFuel gs) _
      (init_SInv gs start goal) (init_phi_lt gs start) k).symm
  · rw [find_path_expansions]
    have h1 := find_path_exp_aux_len gs start goal (searchFuel gs) _ []
      (init_SInv gs start goal)
    have h2 := init_phi_lt gs start
    simp only [List.length_nil] at h1
    omega

/-- Concrete instantiation of `C7_amended_search_bounded`. -/
theorem C7_amended_search_bounded_witness :
    gsDrain.you.body ≠ [] ∧
    (find_path_aux gsDrain (3, 0) (-5, 2) (searchFuel gsDrain + 5)
        { heap := [(0, (3, 0))], came_from := [], g_score := [((3, 0), 0)] } =
      find_path (3, 0) (-5, 2) gsDrain ∧
    (find_path_expansions (3, 0) (-5, 2) gsDrain).length ≤ searchFuel gsDrain) :=
  ⟨by decide, C7_amended_search_bounded (3, 0) (-5, 2) gsDrain 5 (by decide)⟩

/-! ## C3: shortest-path correctness of the search -/

theorem entLe_fst_le (a b : Nat × Pos) (h : entLe a b = true) : a.1 ≤ b.1 := by
  simp only [entLe, Bool.or_eq_true, Bool.and_eq_true, decide_eq_true_eq, beq_iff_eq] at h
  omega

theorem step_manhattan_le (gs : GameState) (q r goal : Pos)
    (h : validStepB gs q r = true) :
    manhattan_distance q goal ≤ manhattan_distance r goal + 1 := by
  rw [validStepB, Bool.and_eq_true] at h
  obtain ⟨hadj, -⟩ := h
  rw [List.any_eq_true] at hadj
  obtain ⟨md, hmd, hr⟩ := hadj
  rw [Bool.and_eq_true, beq_iff_eq, beq_iff_eq] at hr
  obtain ⟨h1, h2⟩ := hr
  simp only [DIRECTIONS, List.mem_cons, List.not_mem_nil, or_false] at hmd
  rcases hmd with rfl | rfl | rfl | rfl <;>
    · simp only [manhattan_distance] at h1 h2 ⊢
      omega

theorem manhattan_le_chainLen (gs : GameState) (goal : Pos) (t : List Pos) :
    ∀ q : Pos, validChainB gs q t goal = true →
    manhattan_distance q goal ≤ t.length := by
  induction t with
  | nil =>
    intro q hch
    rw [validChainB, beq_iff_eq] at hch
    rw [hch, manhattan_self]
    exact Nat.le_refl 0
  | cons r rest ih =>
    intro q hch
    rw [validChainB, Bool.and_eq_true] at hch
    obtain ⟨hstep, hch2⟩ := hch
    calc manhattan_distance q goal ≤ manhattan_distance r goal + 1 :=
          step_manhattan_le gs q r goal hstep
      _ ≤ rest.length + 1 := by
          have := ih r hch2
          omega
      _ = (r :: rest).length := by simp

theorem validChainB_snoc (gs : GameState) (t0 : List Pos) : ∀ start pl fin : Pos,
    validChainB gs start (t0 ++ [pl]) fin = true ↔
    (fin = pl ∧ ∃ c, validChainB gs start t0 c = true ∧ validStepB gs c pl = true) := by
  induction t0 with
  | nil =>
    intro s pl fin
    simp only [List.nil_append, validChainB, Bool.and_eq_true, beq_iff_eq]
    constructor
    · rintro ⟨hstep, rfl⟩
      exact ⟨rfl, s, rfl, hstep⟩
    · rintro ⟨rfl, c, rfl, hstep⟩
      exact ⟨hstep, rfl⟩
  | cons a t0' ih =>
    intro s pl fin
    simp only [List.cons_append, validChainB, Bool.and_eq_true, List.append_eq]
    rw [ih a pl fin]
    constructor
    · rintro ⟨hsa, rfl, c, hc, hstep⟩
      exact ⟨rfl, c, ⟨hsa, hc⟩, hstep⟩
    · rintro ⟨rfl, c, ⟨hsa, hc⟩, hstep⟩
      exact ⟨hsa, rfl, c, hc, hstep⟩

theorem chain_frontier (gs : GameState) (start goal : Pos) (st : SearchState)
    (hS : SInv gs start goal st) (t : List Pos) : ∀ p : Pos,
    validChainB gs start t p = true →
    (∃ gp, lookupA st.g_score p = some gp ∧ gp ≤ t.length) ∨
    (∃ q f gq t2, (f, q) ∈ st.heap ∧ lookupA st.g_score q = some gq ∧
      f ≤ gq + manhattan_distance q goal ∧ validChainB gs q t2 p = true ∧
      gq + t2.length ≤ t.length) := by
  induction t using List.reverseRecOn with
  | nil =>
    intro p hch
    rw [validChainB, beq_iff_eq] at hch
    left
    rw [← hch]
    exact ⟨0, hS.g0, Nat.le_refl 0⟩
  | append_singleton t0 pl ih =>
    intro p hch
    rw [validChainB_snoc] at hch
    obtain ⟨rfl, c, hc, hstep⟩ := hch
    rcases ih c hc with ⟨gc, hgc, hgcle⟩ | ⟨q, f, gq, t2, hent, hgq, hfle, hcq, hlen⟩
    · rcases hS.fr (c, gc) (lookupA_mem _ _ _ hgc) with ⟨f, hent, hfle⟩ | hall
      · right
        refine ⟨c, f, gc, [p], hent, hgc, hfle, ?_, ?_⟩
        · simp only [validChainB, Bool.and_eq_true, beq_iff_eq]
          exact ⟨hstep, trivial⟩
        · simp only [List.length_singleton, List.length_append]
          omega
      · left
        obtain ⟨gpl, hgpl, hle⟩ := hall p (mem_neighbors_of_step gs c p hstep)
        refine ⟨gpl, hgpl, ?_⟩
        simp only [List.length_append, List.length_singleton]
        omega
    · right
      refine ⟨q, f, gq, t2 ++ [p], hent, hgq, hfle, ?_, ?_⟩
      · rw [validChainB_snoc]
        exact ⟨rfl, c, hcq, hstep⟩
      · simp only [List.length_append, List.length_singleton]
        omega

theorem reconstruct_ok (gs : GameState) (start : Pos)
    (cf : List (Pos × Pos)) (g : List (Pos × Nat))
    (hcfk : ∀ p : Pos, lookupA cf p ≠ none ↔ (p ∈ g.map Prod.fst ∧ p ≠ start))
    (hcfs : ∀ p q : Pos, lookupA cf p = some q → ∃ gp gq,
      lookupA g p = some gp ∧ lookupA g q = some gq ∧ gq < gp ∧
      validStepB gs q p = true) :
    ∀ fuel : Nat, ∀ cur : Pos, ∀ gc : Nat, ∀ acc : List Pos,
    lookupA g cur = some gc → gc < fuel →
    ∃ tr, reconstruct cf fuel cur acc = tr ++ acc ∧
      validChainB gs start tr cur = true ∧ tr.length ≤ gc := by
  intro fuel
  induction fuel with
  | zero => intro cur gc acc hcur hlt; omega
  | succ f ih =>
    intro cur gc acc hcur hlt
    rw [reconstruct]
    cases hcf : lookupA cf cur with
    | none =>
      have hcs : cur = start := by
        by_contra hne
        have hin : cur ∈ g.map Prod.fst := by
          rw [← lookupA_isSome_iff]
          rw [hcur]
          exact Option.some_ne_none gc
        have := (hcfk cur).mpr ⟨hin, hne⟩
        exact this hcf
      refine ⟨[], by simp, ?_, Nat.zero_le gc⟩
      rw [validChainB, beq_iff_eq]
      exact hcs.symm
    | some prev =>
      obtain ⟨gp, gq, hgp, hgq, hlt2, hstep⟩ := hcfs cur prev hcf
      have hgpgc : gp = gc := by
        rw [hcur] at hgp
        exact (Option.some.injEq _ _ ▸ hgp).symm
      obtain ⟨tr2, heq, hch2, hlen2⟩ := ih prev gq (cur :: acc) hgq (by omega)
      refine ⟨tr2 ++ [cur], ?_, ?_, ?_⟩
      · dsimp only
        rw [heq, List.append_assoc, List.singleton_append]
      · exact validChainB_append gs tr2 start prev cur hch2 hstep
      · rw [List.length_append, List.length_singleton]
        omega

theorem goal_pop_bound (gs : GameState) (start goal : Pos) (st : SearchState)
    (hS : SInv gs start goal st) (e : Nat × Pos) (rest : List (Nat × Pos))
    (hpop : heapPop st.heap = some (e, rest)) (hgoal : e.2 = goal)
    (t : List Pos) (hch : validChainB gs start t goal = true) :
    ∃ gg, lookupA st.g_score goal = some gg ∧ gg ≤ t.length := by
  obtain ⟨hmemb, -, hmin⟩ := heapPop_spec st.heap e rest hpop
  rcases chain_frontier gs start goal st hS t goal hch with
    ⟨gg, hgg, hggle⟩ | ⟨q, f, gq, t2, hent, hgq, hfle, hcq, hlen⟩
  · exact ⟨gg, hgg, hggle⟩
  · have hef : e.1 ≤ f := entLe_fst_le e (f, q) (hmin (f, q) hent)
    have hadm : manhattan_distance q goal ≤ t2.length :=
      manhattan_le_chainLen gs goal t2 q hcq
    rcases hS.hs e hmemb with ⟨gp, hgp, hple⟩ | hstart
    · rw [hgoal] at hgp
      rw [hgoal, manhattan_self] at hple
      exact ⟨gp, hgp, by omega⟩
    · have hgs : goal = start := by
        rw [← hgoal, hstart]
      rw [hgs]
      exact ⟨0, hS.g0, Nat.zero_le _⟩

theorem aux_complete (gs : GameState) (start goal : Pos) :
    ∀ fuel : Nat, ∀ st : SearchState, SInv gs start goal st → phi gs st < fuel →
    ∀ t : List Pos, validChainB gs start t goal = true →
    ∃ tr, find_path_aux gs start goal fuel st = some (start :: tr) ∧
      validChainB gs start tr goal = true ∧ tr.length ≤ t.length := by
  intro fuel
  induction fuel using Nat.strong_induction_on with
  | _ fuel ih =>
    intro st hS hphi t hch
    cases fuel with
    | zero => omega
    | succ f =>
      rw [find_path_aux]
      cases hpop : heapPop st.heap with
      | none =>
        exfalso
        rw [heapPop_none_iff] at hpop
        rcases chain_frontier gs start goal st hS t goal hch with
          ⟨gg, hgg, -⟩ | ⟨q, ff, gq, t2, hent, -, -, -, -⟩
        · obtain ⟨ff, hmem, -⟩ := hS.gl gg hgg
          rw [hpop] at hmem
          exact absurd hmem (List.not_mem_nil _)
        · rw [hpop] at hent
          exact absurd hent (List.not_mem_nil _)
      | some pr =>
        obtain ⟨e, rest⟩ := pr
        dsimp only
        by_cases hg : e.2 = goal
        · rw [if_pos hg]
          obtain ⟨gg, hgg, hggle⟩ := goal_pop_bound gs start goal st hS e rest hpop hg t hch
          have hfuel : gg < st.came_from.length + 1 := by
            have h1 := hS.vb (goal, gg) (lookupA_mem _ _ _ hgg)
            have h2 := hS.cfl
            dsimp only at h1
            omega
          obtain ⟨tr, heq, hchtr, hlen⟩ := reconstruct_ok gs start st.came_from
            st.g_score hS.cfk hS.cfs (st.came_from.length + 1) goal gg [] hgg hfuel
          rw [List.append_nil] at heq
          rw [hg, heq]
          exact ⟨tr, rfl, hchtr, by omega⟩
        · rw [if_neg hg]
          obtain ⟨hS2, hphi2⟩ := step_preserves gs start goal st hS e rest hpop hg
          exact ih f (by omega) _ hS2 (by omega) t hch

theorem aux_none (gs : GameState) (start goal : Pos) :
    ∀ fuel : Nat, ∀ st : SearchState, SInv gs start goal st →
    (∀ t : List Pos, validChainB gs start t goal = true → False) →
    find_path_aux gs start goal fuel st = none := by
  intro fuel
  induction fuel using Nat.strong_induction_on with
  | _ fuel ih =>
    intro st hS hnone
    cases fuel with
    | zero => rw [find_path_aux]
    | succ f =>
      rw [find_path_aux]
      cases hpop : heapPop st.heap with
      | none => rfl
      | some pr =>
        obtain ⟨e, rest⟩ := pr
        dsimp only
        by_cases hg : e.2 = goal
        · exfalso
          obtain ⟨hmemb, -, -⟩ := heapPop_spec st.heap e rest hpop
          have hin : e.2 ∈ st.g_score.map Prod.fst := hS.hk e hmemb
          rw [← lookupA_isSome_iff] at hin
          obtain ⟨gg, hgg⟩ := Option.ne_none_iff_exists.mp hin
          obtain ⟨tg, hchg, -⟩ := hS.snd (e.2, gg)
            (lookupA_mem st.g_score e.2 gg hgg.symm)
          rw [hg] at hchg
          exact hnone tg hchg
        · rw [if_neg hg]
          obtain ⟨hS2, hphi2⟩ := step_preserves gs start goal st hS e rest hpop hg
          exact ih f (by omega) _ hS2 hnone

/-- C3: for every start, goal and snapshot (with a nonempty own body, the
domain where the Python safety oracle cannot raise): if any four-directionally
adjacent sequence from start to goal exists whose every cell except start
passes the safety oracle, then find_path returns such a sequence of minimum
step count (first element start, last element goal); if no such sequence
exists, find_path returns none. -/
theorem C3_find_path_shortest (gs : GameState) (start goal : Pos)
    (h : gs.you.body ≠ []) :
    (∀ l, IsValidPath gs start goal l →
      ∃ p, find_path start goal gs = some p ∧ IsValidPath gs start goal p ∧
        ∀ l2, IsValidPath gs start goal l2 → p.length ≤ l2.length) ∧
    ((∀ l, ¬ IsValidPath gs start goal l) → find_path start goal gs = none) := by
  constructor
  · rintro l ⟨t, rfl, hch⟩
    obtain ⟨tr, heq, hchtr, hlen⟩ := aux_complete gs start goal (searchFuel gs) _
      (init_SInv gs start goal) (init_phi_lt gs start) t hch
    rw [find_path]
    refine ⟨start :: tr, heq, ⟨tr, rfl, hchtr⟩, ?_⟩
    rintro l2 ⟨t2, rfl, hch2⟩
    obtain ⟨tr2, heq2, -, hlen2⟩ := aux_complete gs start goal (searchFuel gs) _
      (init_SInv gs start goal) (init_phi_lt gs start) t2 hch2
    have htreq : tr = tr2 := by
      rw [heq] at heq2
      simpa using heq2
    have hl : tr.length ≤ t2.length := by
      rw [htreq]
      exact hlen2
    simp only [List.length_cons]
    omega
  · intro hnone
    rw [find_path]
    exact aux_none gs start goal (searchFuel gs) _ (init_SInv gs start goal)
      (fun t hch => hnone (start :: t) ⟨t, rfl, hch⟩)

theorem C3_find_path_shortest_witness :
    gsDrain.you.body ≠ [] ∧
    ((∀ l, IsValidPath gsDrain (0, 0) (2, 0) l →
      ∃ p, find_path (0, 0) (2, 0) gsDrain = some p ∧
        IsValidPath gsDrain (0, 0) (2, 0) p ∧
        ∀ l2, IsValidPath gsDrain (0, 0) (2, 0) l2 → p.length ≤ l2.length) ∧
    ((∀ l, ¬ IsValidPath gsDrain (0, 0) (2, 0) l) →
      find_path (0, 0) (2, 0) gsDrain = none)) :=
  ⟨by decide, C3_find_path_shortest gsDrain (0, 0) (2, 0) (by decide)⟩
